import Mathlib

/-!
Verification of the mcmf-wasm-demo repository: a minimum-cost maximum-flow
(MCMF) core behind a wasm boundary, plus a thin JS client.

The repository ships only the TypeScript interface declarations
(`src/mcmf-wasm/pkg/mcmf_wasm.d.ts`) and the client script (`src/index.js`);
the Rust implementation compiled to wasm is not part of the source tree.
The algorithmic definitions below are therefore modelled from the
specification (successive shortest augmenting paths with potentials,
Bellman-Ford relaxation, greedy flow decomposition), and the interface and
client definitions are embedded from the two source files directly.
-/

namespace Mcmf

/-- Modelled from the spec (§3 Data Model): an arc of the residual graph.
`src`/`dst` are dense node indices, `cap` and `cost` the user-supplied
numbers, `flow` the mutable flow value.  The Rust arc store is missing from
the source tree. -/
structure Arc where
  src : Nat
  dst : Nat
  cap : Int
  cost : Int
  flow : Int
deriving DecidableEq, Repr

/-- Modelled from the spec (§2, §3): the builder state, a node registry
(labels in first-seen order, index = position) plus the flat arc sequence.
The reverse arc of the arc at position `i` sits at position `i ^^^ 1`. -/
structure Graph where
  labels : List String
  arcs : List Arc
deriving DecidableEq, Repr

/-- The empty builder (`new_builder()`). -/
def newBuilder : Graph := { labels := [], arcs := [] }

/-- Index of a label in the registry, if present. -/
def lookupLabel : List String → String → Option Nat
  | [], _ => none
  | x :: xs, l => if x = l then some 0 else (lookupLabel xs l).map (· + 1)

/-- Modelled from the spec (§4.1): lookup-or-insert of a label, returning
the updated registry and the label's dense index. -/
def intern (g : Graph) (l : String) : Graph × Nat :=
  match lookupLabel g.labels l with
  | some i => (g, i)
  | none => ({ g with labels := g.labels ++ [l] }, g.labels.length)

/-- Modelled from the spec (§4.2): `add_edge` interns both labels and
appends a forward arc `(u, v, cap, cost, 0)` plus its paired reverse arc
`(v, u, 0, -cost, 0)`. -/
def add_edge (g : Graph) (fr : String) (tl : String) (cap : Int) (cost : Int) :
    Graph :=
  let p1 := intern g fr
  let p2 := intern p1.1 tl
  { p2.1 with
    arcs := p2.1.arcs ++
      [⟨p1.2, p2.2, cap, cost, 0⟩, ⟨p2.2, p1.2, 0, -cost, 0⟩] }

/-- Number of registered nodes. -/
def numNodes (g : Graph) : Nat := g.labels.length

/-- Residual capacity of an arc (glossary: capacity − current flow). -/
def residual (a : Arc) : Int := a.cap - a.flow

/-- Label of a node index (total, with a default for out-of-range). -/
def labelOf (g : Graph) (v : Nat) : String := g.labels.getD v ""

/-! ### Bellman-Ford with potentials (spec §4.3 steps 1–3) -/

/-- Reduced cost of an arc under node potentials (glossary: cost adjusted
by potentials). -/
def rcost (pot : List Int) (a : Arc) : Int :=
  a.cost + pot.getD a.src 0 - pot.getD a.dst 0

/-- Shortest-path search state: tentative distances (in reduced costs) and
predecessor arc indices. -/
structure BFState where
  dist : List (Option Int)
  pred : List (Option Nat)
deriving DecidableEq, Repr

/-- Modelled from the spec (§4.3 step 1): relax the arc at position `i`,
restricted to arcs with positive residual capacity. -/
def relaxArc (g : Graph) (pot : List Int) (st : BFState) (i : Nat) : BFState :=
  match g.arcs.get? i with
  | none => st
  | some a =>
    if residual a > 0 then
      match st.dist.getD a.src none with
      | none => st
      | some du =>
        let nd := du + rcost pot a
        match st.dist.getD a.dst none with
        | some dv =>
          if nd < dv then
            { dist := st.dist.set a.dst (some nd),
              pred := st.pred.set a.dst (some i) }
          else st
        | none =>
          { dist := st.dist.set a.dst (some nd),
            pred := st.pred.set a.dst (some i) }
    else st

/-- One Bellman-Ford round: relax every arc once, in insertion order. -/
def bfRound (g : Graph) (pot : List Int) (st : BFState) : BFState :=
  (List.range g.arcs.length).foldl (relaxArc g pot) st

/-- Iterate a function `n` times. -/
def iterate (f : α → α) : Nat → α → α
  | 0, x => x
  | n + 1, x => iterate f n (f x)

/-- Initial search state: source at distance 0, everything else unreached. -/
def bfInit (g : Graph) (s : Nat) : BFState :=
  { dist := (List.range (numNodes g)).map (fun v => if v = s then some 0 else none),
    pred := List.replicate (numNodes g) none }

/-- Modelled from the spec (§4.3 step 1): a full Bellman-Ford/SPFA pass
over reduced costs, `numNodes` relaxation rounds. -/
def bellmanFord (g : Graph) (pot : List Int) (s : Nat) : BFState :=
  iterate (bfRound g pot) (numNodes g) (bfInit g s)

/-- Modelled from the spec (§4.3 step 3): Johnson potential update,
`potential(v) += distance(v)` for reachable `v`. -/
def updatePot (pot : List Int) (dist : List (Option Int)) : List Int :=
  (List.range pot.length).map (fun v =>
    match dist.getD v none with
    | some d => pot.getD v 0 + d
    | none => pot.getD v 0)

/-! ### Augmenting path extraction and pushing (spec §4.3 steps 4–7) -/

/-- Modelled from the spec (§4.3 step 4): walk back from `cur` to `s`
through predecessor arc indices, returning the path as a source-to-sink
list of arc positions.  The `visited` accumulator cuts predecessor cycles
(which only arise when the no-negative-cycle precondition of §7 is
violated, where real code would loop forever). -/
def walkBack (g : Graph) (pred : List (Option Nat)) (s : Nat) :
    Nat → Nat → List Nat → Option (List Nat)
  | 0, _, _ => none
  | fuel + 1, cur, visited =>
    if cur = s then some []
    else if cur ∈ visited then none
    else
      match pred.getD cur none with
      | none => none
      | some i =>
        match g.arcs.get? i with
        | none => none
        | some a => (walkBack g pred s fuel a.src (cur :: visited)).map (· ++ [i])

/-- Minimum of a list of integers (0 for the empty list). -/
def listMin : List Int → Int
  | [] => 0
  | [x] => x
  | x :: y :: xs => min x (listMin (y :: xs))

/-- Residual capacity of the arc at position `i` (0 if out of range). -/
def residAt (g : Graph) (i : Nat) : Int :=
  match g.arcs.get? i with
  | some a => residual a
  | none => 0

/-- Original (non-reduced) cost of the arc at position `i`. -/
def arcCost (g : Graph) (i : Nat) : Int :=
  match g.arcs.get? i with
  | some a => a.cost
  | none => 0

/-- Flow of the arc at position `i`. -/
def arcFlow (g : Graph) (i : Nat) : Int :=
  match g.arcs.get? i with
  | some a => a.flow
  | none => 0

/-- Source node of the arc at position `i` (0 if out of range). -/
def arcSrc (g : Graph) (i : Nat) : Nat :=
  match g.arcs.get? i with
  | some a => a.src
  | none => 0

/-- Destination node of the arc at position `i` (0 if out of range). -/
def arcDst (g : Graph) (i : Nat) : Nat :=
  match g.arcs.get? i with
  | some a => a.dst
  | none => 0

/-- Capacity of the arc at position `i` (0 if out of range). -/
def arcCap (g : Graph) (i : Nat) : Int :=
  match g.arcs.get? i with
  | some a => a.cap
  | none => 0

/-- Modelled from the spec (§4.3 step 5): bottleneck residual capacity of
a path given as arc positions. -/
def bottleneck (g : Graph) (l : List Nat) : Int := listMin (l.map (residAt g))

/-- Modelled from the spec (§4.3 step 7): a path's cost at original costs. -/
def pathCost (g : Graph) (l : List Nat) : Int := (l.map (arcCost g)).sum

/-- Position of the paired arc: forward arcs sit at even positions, their
reverse pairs right after them (the spec's "position `i` XOR 1, or any
fixed pairing scheme"). -/
def pairIdx (i : Nat) : Nat := if i % 2 = 0 then i + 1 else i - 1

/-- Overwrite the flow of the arc at position `i` (no-op out of range). -/
def setFlowAt (g : Graph) (i : Nat) (f : Int) : Graph :=
  match g.arcs.get? i with
  | some a => { g with arcs := g.arcs.set i { a with flow := f } }
  | none => g

/-- Modelled from the spec (§4.3 step 6): push `b` units through the arc at
position `i`, mirroring `-b` on its paired reverse arc. -/
def pushArc (g : Graph) (b : Int) (i : Nat) : Graph :=
  setFlowAt (setFlowAt g i (arcFlow g i + b)) (pairIdx i)
    (arcFlow g (pairIdx i) - b)

/-- Push `b` units along every arc of a path. -/
def pushPath (g : Graph) (b : Int) (l : List Nat) : Graph :=
  l.foldl (fun h i => pushArc h b i) g

/-! ### The engine loop (spec §4.3) -/

/-- Engine state: residual graph, accumulated flow and cost, potentials. -/
structure EngState where
  g : Graph
  flow : Int
  cost : Int
  pot : List Int
deriving DecidableEq, Repr

/-- Modelled from the spec (§4.3 steps 1–7): one iteration of the
successive-shortest-augmenting-path loop.  `none` means the sink is
unreachable (or no usable predecessor path exists) and the loop stops. -/
def mcmfStep (s t : Nat) (st : EngState) : Option EngState :=
  let bf := bellmanFord st.g st.pot s
  match bf.dist.getD t none with
  | none => none
  | some _ =>
    match walkBack st.g bf.pred s (numNodes st.g) t [] with
    | none => none
    | some l =>
      let b := bottleneck st.g l
      some { g := pushPath st.g b l,
             flow := st.flow + b,
             cost := st.cost + b * pathCost st.g l,
             pot := updatePot st.pot bf.dist }

/-- Modelled from the spec (§4.3 step 8): iterate until no augmenting path
remains.  The returned flag is `true` when the loop stopped because the
sink became unreachable and `false` when the fuel ran out. -/
def mcmfLoop (s t : Nat) : Nat → EngState → EngState × Bool
  | 0, st => (st, false)
  | fuel + 1, st =>
    match mcmfStep s t st with
    | none => (st, true)
    | some st' => mcmfLoop s t fuel st'

/-- Fuel bound for the loop: one more than the sum of all capacities. -/
def capFuel (g : Graph) : Nat :=
  (∑ i in Finset.range g.arcs.length, (arcCap g i).toNat) + 1

/-- Initial engine state over a built graph: zero flow, zero cost, zero
potentials. -/
def engInit (g : Graph) : EngState :=
  { g := g, flow := 0, cost := 0, pot := List.replicate (numNodes g) 0 }

/-! ### Flow decomposition (spec §4.4) -/

/-- Whether an arc position holds a forward (user-added) arc: forward arcs
sit at even positions, their reverse pairs at odd ones. -/
def isFwd (i : Nat) : Bool := i % 2 = 0

/-- Modelled from the spec (§4.4): the outgoing forward arc of `v` carrying
positive flow with lowest insertion order, if any. -/
def outFlowArc (g : Graph) (v : Nat) : Option Nat :=
  (List.range g.arcs.length).find? (fun i =>
    isFwd i &&
      match g.arcs.get? i with
      | some a => a.src == v && a.flow > 0
      | none => false)

/-- Modelled from the spec (§4.4): trace one flow-carrying walk from `v`
to the sink `t`, following at each node the lowest-insertion-order forward
arc with positive flow.  The `visited` accumulator cuts flow cycles (a
degenerate case the spec's §9 declares out of contract). -/
def walkFwd (g : Graph) (t : Nat) : Nat → Nat → List Nat → Option (List Nat)
  | 0, _, _ => none
  | fuel + 1, v, visited =>
    if v = t then some []
    else if v ∈ visited then none
    else
      match outFlowArc g v with
      | none => none
      | some i =>
        match g.arcs.get? i with
        | some a => (walkFwd g t fuel a.dst (v :: visited)).map (i :: ·)
        | none => none

/-- Decrement the flow of the arc at position `i` by `b` (reverse pair
untouched: the decomposer only consumes forward flow, spec §4.4). -/
def decFlow (g : Graph) (b : Int) (i : Nat) : Graph :=
  setFlowAt g i (arcFlow g i - b)

/-- Decrement the flow along every arc of a path. -/
def decPath (g : Graph) (b : Int) (l : List Nat) : Graph :=
  l.foldl (fun h i => decFlow h b i) g

/-- A decomposed path: its flow amount and its arc positions, in order. -/
structure RawPath where
  flow : Int
  arcIdxs : List Nat
deriving DecidableEq, Repr

/-- Modelled from the spec (§4.4): repeatedly extract a positive-flow path
from `s` to `t`, decrement its bottleneck amount, until no forward arc out
of `s` carries positive flow. -/
def decomposeAux (s t : Nat) : Nat → Graph → List RawPath
  | 0, _ => []
  | fuel + 1, g =>
    match walkFwd g t (numNodes g) s [] with
    | none => []
    | some [] => []
    | some l =>
      let b := listMin (l.map (arcFlow g))
      ⟨b, l⟩ :: decomposeAux s t fuel (decPath g b l)

/-- Fuel bound for decomposition: one more than the total flow. -/
def flowFuel (g : Graph) : Nat :=
  (∑ i in Finset.range g.arcs.length, (arcFlow g i).toNat) + 1

/-- Modelled from the spec (§4.4): full decomposition of the post-solve
residual state. -/
def decompose (g : Graph) (s t : Nat) : List RawPath :=
  decomposeAux s t (flowFuel g) g

/-! ### The public solve operation (spec §4.3, §6; `solve_mcmf` in
`mcmf_wasm.d.ts`) -/

/-- The error taxonomy of the public contract (spec §7). -/
inductive McmfError where
  | unreachableNode
deriving DecidableEq, Repr

/-- A decomposed path as the interface exposes it: `flow()` and `nodes()`
(node labels, source first, sink last), plus the arc positions it was
decomposed from. -/
structure SolutionPath where
  flow : Int
  nodes : List String
  arcIdxs : List Nat
deriving DecidableEq, Repr

/-- The solution value object of the interface (`McmfSolution`):
`max_flow()`, `total_cost()`, `paths()`. -/
structure Solution where
  max_flow : Int
  total_cost : Int
  paths : List SolutionPath
deriving DecidableEq, Repr

/-- Node-label sequence of a path starting at `s` with arc positions `l`. -/
def pathNodes (g : Graph) (s : Nat) (l : List Nat) : List String :=
  labelOf g s :: l.map (fun i =>
    match g.arcs.get? i with
    | some a => labelOf g a.dst
    | none => "")

/-- Modelled from the spec (§4.3, §4.4, §6): `solve_mcmf(source, sink)`.
Fails with `UnreachableNodeError` when either label was never interned;
otherwise runs the engine to completion and decomposes the final flow. -/
def solve_mcmf (g : Graph) (source : String) (sink : String) :
    Except McmfError Solution :=
  match lookupLabel g.labels source, lookupLabel g.labels sink with
  | some s, some t =>
    let fin := (mcmfLoop s t (capFuel g) (engInit g)).1
    let raw := decompose fin.g s t
    Except.ok
      { max_flow := fin.flow,
        total_cost := fin.cost,
        paths := raw.map (fun p => ⟨p.flow, pathNodes fin.g s p.arcIdxs, p.arcIdxs⟩) }
  | _, _ => Except.error McmfError.unreachableNode

/-- Build a graph from a list of edges, as the client does. -/
def buildGraph (edges : List (String × String × Int × Int)) : Graph :=
  edges.foldl (fun g e => add_edge g e.1 e.2.1 e.2.2.1 e.2.2.2) newBuilder

/-- The example graph of `src/index.js` (also spec §8 Scenario 3). -/
def exampleGraph : Graph :=
  buildGraph [("a", "b", 10, 200), ("b", "c", 20, 0), ("c", "e", 15, 0),
              ("a", "d", 2, 100), ("d", "e", 3, 0)]

instance {ε α : Type} [DecidableEq ε] [DecidableEq α] : DecidableEq (Except ε α) :=
  fun a b =>
    match a, b with
    | .error e, .error f =>
      if h : e = f then isTrue (by rw [h]) else isFalse (fun c => by cases c; exact h rfl)
    | .ok x, .ok y =>
      if h : x = y then isTrue (by rw [h]) else isFalse (fun c => by cases c; exact h rfl)
    | .error _, .ok _ => isFalse (fun c => by cases c)
    | .ok _, .error _ => isFalse (fun c => by cases c)

/-! ### The interface surface and the client script

These definitions are embedded directly from the two files present in the
source tree: `src/mcmf-wasm/pkg/mcmf_wasm.d.ts` (the public interface) and
`src/index.js` (the client's call sequence). -/

/-- Module-level functions exported by `mcmf_wasm.d.ts`. -/
def dtsModuleFunctions : List String := ["init"]

/-- Classes exported by `mcmf_wasm.d.ts`. -/
def dtsClasses : List String := ["GraphBuilder", "McmfSolution", "Path"]

/-- Methods of `GraphBuilder` in `mcmf_wasm.d.ts`. -/
def dtsGraphBuilderMethods : List String :=
  ["free", "constructor", "add_edge", "solve_mcmf"]

/-- The public operations the spec's §6 lists (language-agnostic contract). -/
def spec6Operations : List String :=
  ["new_builder", "add_edge", "solve", "max_flow", "total_cost", "paths",
   "flow", "nodes"]

/-- One call made by the client script `src/index.js`. -/
inductive ClientCall where
  | initCall
  | newBuilder
  | addEdge (fr : String) (tl : String) (cap : Int) (cost : Int)
  | solveMcmf (source : String) (sink : String)
  | maxFlow
  | totalCost
  | pathsCall
deriving DecidableEq, Repr

/-- The call sequence of `src/index.js`, in program order. -/
def clientScript : List ClientCall :=
  [.initCall, .newBuilder,
   .addEdge "a" "b" 10 200, .addEdge "b" "c" 20 0, .addEdge "c" "e" 15 0,
   .addEdge "a" "d" 2 100, .addEdge "d" "e" 3 0,
   .solveMcmf "a" "e", .maxFlow, .totalCost, .pathsCall]

/-! ### Concrete states used by counterexamples -/

/-- Spec §8 Scenario 1: a single edge a→b with capacity 5, cost 2. -/
def scenario1 : Graph := buildGraph [("a", "b", 5, 2)]

/-- The engine state after the loop finishes on Scenario 1 (source `a` is
index 0, sink `b` is index 1): a point during solving, after the engine and
before decomposition. -/
def scenario1Final : EngState :=
  (mcmfLoop 0 1 (capFuel scenario1) (engInit scenario1)).1

/-! ### Accessors and invariants used by the verification -/

/-- Structural wellformedness of the arc store (spec §3): even length, the
reverse pair of each arc has swapped endpoints, negated cost, capacity 0,
forward capacities are non-negative, and endpoints are registered nodes. -/
def Wf (g : Graph) : Prop :=
  g.arcs.length % 2 = 0 ∧
  (∀ i, i < g.arcs.length →
    arcSrc g (pairIdx i) = arcDst g i ∧
    arcCost g (pairIdx i) = -(arcCost g i)) ∧
  (∀ i, i < g.arcs.length → i % 2 = 0 →
    0 ≤ arcCap g i ∧ arcCap g (pairIdx i) = 0) ∧
  (∀ i, i < g.arcs.length →
    arcSrc g i < numNodes g ∧ arcDst g i < numNodes g)

/-- Forward-arc flow bounds (spec §3 invariant, forward half):
`0 ≤ flow ≤ capacity` on every forward (even-position) arc. -/
def FwdBounds (g : Graph) : Prop :=
  ∀ i, i < g.arcs.length → i % 2 = 0 →
    0 ≤ arcFlow g i ∧ arcFlow g i ≤ arcCap g i

/-- Pairing antisymmetry (spec §3 invariant):
`flow(reverse_pair) = -flow(arc)`. -/
def PairAntisym (g : Graph) : Prop :=
  ∀ i, i < g.arcs.length → arcFlow g (pairIdx i) = -(arcFlow g i)

/-- The flow invariant of spec §3, with the bounds read on forward arcs. -/
def FlowInv (g : Graph) : Prop := PairAntisym g ∧ FwdBounds g

/-- Net signed outflow of node `v`: the sum of the flows of all arcs
(forward and reverse) leaving `v`. -/
def netOut (g : Graph) (v : Nat) : Int :=
  ∑ i in Finset.range g.arcs.length, if arcSrc g i = v then arcFlow g i else 0

/-- Total forward flow leaving node `v`. -/
def fwdOut (g : Graph) (v : Nat) : Int :=
  ∑ i in Finset.range g.arcs.length,
    if i % 2 = 0 ∧ arcSrc g i = v then arcFlow g i else 0

/-- Total forward flow entering node `v`. -/
def fwdIn (g : Graph) (v : Nat) : Int :=
  ∑ i in Finset.range g.arcs.length,
    if i % 2 = 0 ∧ arcDst g i = v then arcFlow g i else 0

/-- Sum over forward arcs of `flow × cost` (the spec §3 "sum over arcs of
flow×cost" reading of `total_cost`). -/
def fwdSum (g : Graph) : Int :=
  ∑ i in Finset.range g.arcs.length,
    if i % 2 = 0 then arcFlow g i * arcCost g i else 0

/-- Total forward flow of the graph. -/
def sumFwdFlow (g : Graph) : Int :=
  ∑ i in Finset.range g.arcs.length, if i % 2 = 0 then arcFlow g i else 0

/-- Total capacity of the graph. -/
def capInt (g : Graph) : Int :=
  ∑ i in Finset.range g.arcs.length, arcCap g i

/-- `chainOk g u l w`: the arc positions `l` form a consecutive path from
node `u` to node `w` (all positions in range). -/
def chainOk (g : Graph) : Nat → List Nat → Nat → Prop
  | u, [], w => u = w
  | u, i :: is, w =>
    i < g.arcs.length ∧ arcSrc g i = u ∧ chainOk g (arcDst g i) is w

/-- Reachability from `s` through arcs of positive residual capacity. -/
inductive Reach (g : Graph) (s : Nat) : Nat → Prop where
  | refl : Reach g s s
  | step {u i : Nat} {a : Arc} : Reach g s u → g.arcs.get? i = some a →
      a.src = u → 0 < residual a → Reach g s a.dst

/-- Soundness of predecessor pointers: every recorded predecessor is an
in-range arc ending at the node it is recorded for, with positive residual
capacity. -/
def PredOk (g : Graph) (pred : List (Option Nat)) : Prop :=
  ∀ v i, pred.getD v none = some i →
    i < g.arcs.length ∧ arcDst g i = v ∧ 0 < residAt g i

/-- Distances are only assigned to reachable nodes. -/
def DistReach (g : Graph) (s : Nat) (dist : List (Option Int)) : Prop :=
  ∀ v d, dist.getD v none = some d → Reach g s v

/-- The engine-loop invariant: wellformed graph, the §3 flow invariant,
conservation (net outflow `F` at the source, `-F` at the sink, 0
elsewhere), cost accounting, and no forward flow into the source or out of
the sink. -/
def EngInv (s t : Nat) (st : EngState) : Prop :=
  Wf st.g ∧ FlowInv st.g ∧
  (∀ v, netOut st.g v = if v = s then st.flow else if v = t then -st.flow else 0) ∧
  st.cost = fwdSum st.g ∧
  fwdIn st.g s = 0 ∧ fwdOut st.g t = 0

/-- The invariants the decomposer (spec §4.4) relies on in its input. -/
def DecInv (g : Graph) (s t : Nat) : Prop :=
  Wf g ∧ FwdBounds g ∧
  (∀ v, v ≠ s → v ≠ t → fwdOut g v = fwdIn g v) ∧
  fwdIn g s = 0 ∧ fwdOut g t = 0

/-- A topological rank witnessing that the flow-carrying forward subgraph
is acyclic (the spec §9 precondition: flow-carrying cycles are out of
contract for the decomposition). -/
def RankOk (g : Graph) (rank : Nat → Nat) : Prop :=
  ∀ i, i < g.arcs.length → i % 2 = 0 → 0 < arcFlow g i →
    rank (arcSrc g i) < rank (arcDst g i)

/-- The engine state `solve_mcmf` ends with before decomposing. -/
def solveFinal (g : Graph) (s t : Nat) : EngState :=
  (mcmfLoop s t (capFuel g) (engInit g)).1

/-- Edge lists respecting the `add_edge` constraint `capacity ≥ 0`
(spec §4.2). -/
def EdgesOk (edges : List (String × String × Int × Int)) : Prop :=
  ∀ e ∈ edges, 0 ≤ e.2.2.1

end Mcmf

set_option maxRecDepth 100000

namespace Mcmf

/-- C10: the interface declares a module-level `init()` function, the
client script calls it before constructing any `GraphBuilder`, and the
spec's §6 list of public operations does not mention `init`. -/
theorem C10_init_required_but_unlisted :
    "init" ∈ dtsModuleFunctions ∧
    ClientCall.initCall ∈
      clientScript.takeWhile (fun c => c ≠ ClientCall.newBuilder) ∧
    ClientCall.newBuilder ∈ clientScript ∧
    "init" ∉ spec6Operations := by
  decide

/-- C4 counterexample: on the example graph of `src/index.js`, the solver
modelled from the spec's own algorithm (§4.3) returns max_flow = 12, not 2
as the claim (spec §8 Scenario 3) states. -/
theorem C4_counterexample :
    (solve_mcmf exampleGraph "a" "e").map Solution.max_flow ≠ Except.ok 2 := by
  decide

/-- C4 (amended): on the example graph, solving from a to e yields
max_flow = 12 and total_cost = 2200 = 2·100 + 10·200, the cheaper a→d→e
path saturated at 2 units and the remaining 10 units routed via a→b→c→e. -/
theorem C4_example_graph_solution :
    solve_mcmf exampleGraph "a" "e" =
      Except.ok ⟨12, 2200, [⟨10, ["a", "b", "c", "e"], [0, 2, 4]⟩,
                            ⟨2, ["a", "d", "e"], [6, 8]⟩]⟩ := by
  decide

/-- C5 counterexample: after the engine finishes on Scenario 1 (single
edge a→b, capacity 5, cost 2) — a point during solving — the paired
reverse arc at position 1 carries flow −5, so `0 ≤ flow` fails for it,
refuting the claim that every arc satisfies `0 ≤ flow ≤ capacity` at all
times while also `flow(forward) = -flow(reverse)` holds. -/
theorem C5_counterexample :
    arcFlow scenario1Final.g 0 = 5 ∧ arcFlow scenario1Final.g 1 = -5 ∧
    ¬ (0 ≤ arcFlow scenario1Final.g 1) := by
  decide

end Mcmf


namespace Mcmf

theorem pairIdx_ne (i : Nat) : pairIdx i ≠ i := by
  unfold pairIdx; split <;> omega

theorem pairIdx_invol (i : Nat) : pairIdx (pairIdx i) = i := by
  unfold pairIdx; split <;> split <;> omega

theorem pairIdx_lt {n i : Nat} (hn : n % 2 = 0) (h : i < n) : pairIdx i < n := by
  unfold pairIdx; split <;> omega

theorem pairIdx_even {i : Nat} (h : i % 2 = 0) : pairIdx i = i + 1 := by
  unfold pairIdx; split <;> omega

theorem pairIdx_odd {i : Nat} (h : i % 2 = 1) : pairIdx i = i - 1 := by
  unfold pairIdx; split <;> omega

theorem pairIdx_eq_iff {i j : Nat} : pairIdx i = j ↔ i = pairIdx j := by
  constructor
  · intro h; rw [← h, pairIdx_invol]
  · intro h; rw [h, pairIdx_invol]

theorem labels_setFlowAt (g : Graph) (i : Nat) (f : Int) :
    (setFlowAt g i f).labels = g.labels := by
  unfold setFlowAt; cases g.arcs.get? i <;> rfl

theorem length_setFlowAt (g : Graph) (i : Nat) (f : Int) :
    (setFlowAt g i f).arcs.length = g.arcs.length := by
  unfold setFlowAt; cases g.arcs.get? i <;> simp [List.length_set]

theorem get?_setFlowAt_ne (g : Graph) {i : Nat} (f : Int) {j : Nat}
    (hij : i ≠ j) : (setFlowAt g i f).arcs.get? j = g.arcs.get? j := by
  unfold setFlowAt
  cases hgi : g.arcs.get? i with
  | none => rfl
  | some a => simp [List.get?_eq_getElem?, List.getElem?_set_ne hij]

theorem get?_setFlowAt_self (g : Graph) {i : Nat} (f : Int) {a : Arc}
    (hgi : g.arcs.get? i = some a) :
    (setFlowAt g i f).arcs.get? i = some { a with flow := f } := by
  have hi : i < g.arcs.length := (List.get?_eq_some.mp hgi).1
  unfold setFlowAt
  rw [hgi]
  simp [List.get?_eq_getElem?, List.getElem?_set_self hi]

theorem arcSrc_setFlowAt (g : Graph) (i : Nat) (f : Int) (j : Nat) :
    arcSrc (setFlowAt g i f) j = arcSrc g j := by
  by_cases hij : i = j
  · subst hij
    cases hgi : g.arcs.get? i with
    | none =>
      have hgg : setFlowAt g i f = g := by unfold setFlowAt; rw [hgi]
      rw [hgg]
    | some a => unfold arcSrc; rw [get?_setFlowAt_self g f hgi, hgi]
  · unfold arcSrc; rw [get?_setFlowAt_ne g f hij]

theorem arcDst_setFlowAt (g : Graph) (i : Nat) (f : Int) (j : Nat) :
    arcDst (setFlowAt g i f) j = arcDst g j := by
  by_cases hij : i = j
  · subst hij
    cases hgi : g.arcs.get? i with
    | none =>
      have hgg : setFlowAt g i f = g := by unfold setFlowAt; rw [hgi]
      rw [hgg]
    | some a => unfold arcDst; rw [get?_setFlowAt_self g f hgi, hgi]
  · unfold arcDst; rw [get?_setFlowAt_ne g f hij]

theorem arcCap_setFlowAt (g : Graph) (i : Nat) (f : Int) (j : Nat) :
    arcCap (setFlowAt g i f) j = arcCap g j := by
  by_cases hij : i = j
  · subst hij
    cases hgi : g.arcs.get? i with
    | none =>
      have hgg : setFlowAt g i f = g := by unfold setFlowAt; rw [hgi]
      rw [hgg]
    | some a => unfold arcCap; rw [get?_setFlowAt_self g f hgi, hgi]
  · unfold arcCap; rw [get?_setFlowAt_ne g f hij]

theorem arcCost_setFlowAt (g : Graph) (i : Nat) (f : Int) (j : Nat) :
    arcCost (setFlowAt g i f) j = arcCost g j := by
  by_cases hij : i = j
  · subst hij
    cases hgi : g.arcs.get? i with
    | none =>
      have hgg : setFlowAt g i f = g := by unfold setFlowAt; rw [hgi]
      rw [hgg]
    | some a => unfold arcCost; rw [get?_setFlowAt_self g f hgi, hgi]
  · unfold arcCost; rw [get?_setFlowAt_ne g f hij]

theorem arcFlow_setFlowAt_ne (g : Graph) {i : Nat} (f : Int) {j : Nat}
    (hij : j ≠ i) : arcFlow (setFlowAt g i f) j = arcFlow g j := by
  unfold arcFlow; rw [get?_setFlowAt_ne g f (fun h => hij h.symm)]

theorem arcFlow_setFlowAt_self (g : Graph) {i : Nat} (f : Int)
    (hi : i < g.arcs.length) : arcFlow (setFlowAt g i f) i = f := by
  cases hgi : g.arcs.get? i with
  | none =>
    have := List.get?_eq_none.mp hgi
    omega
  | some a => unfold arcFlow; rw [get?_setFlowAt_self g f hgi]

end Mcmf

namespace Mcmf

theorem labels_pushArc (g : Graph) (b : Int) (i : Nat) :
    (pushArc g b i).labels = g.labels := by
  unfold pushArc; rw [labels_setFlowAt, labels_setFlowAt]

theorem length_pushArc (g : Graph) (b : Int) (i : Nat) :
    (pushArc g b i).arcs.length = g.arcs.length := by
  unfold pushArc; rw [length_setFlowAt, length_setFlowAt]

theorem arcSrc_pushArc (g : Graph) (b : Int) (i j : Nat) :
    arcSrc (pushArc g b i) j = arcSrc g j := by
  unfold pushArc; rw [arcSrc_setFlowAt, arcSrc_setFlowAt]

theorem arcDst_pushArc (g : Graph) (b : Int) (i j : Nat) :
    arcDst (pushArc g b i) j = arcDst g j := by
  unfold pushArc; rw [arcDst_setFlowAt, arcDst_setFlowAt]

theorem arcCap_pushArc (g : Graph) (b : Int) (i j : Nat) :
    arcCap (pushArc g b i) j = arcCap g j := by
  unfold pushArc; rw [arcCap_setFlowAt, arcCap_setFlowAt]

theorem arcCost_pushArc (g : Graph) (b : Int) (i j : Nat) :
    arcCost (pushArc g b i) j = arcCost g j := by
  unfold pushArc; rw [arcCost_setFlowAt, arcCost_setFlowAt]

theorem arcFlow_pushArc (g : Graph) (b : Int) {i : Nat}
    (hi : i < g.arcs.length) (hp : pairIdx i < g.arcs.length) (j : Nat) :
    arcFlow (pushArc g b i) j =
      arcFlow g j + (if j = i then b else 0) - (if j = pairIdx i then b else 0) := by
  unfold pushArc
  by_cases hjp : j = pairIdx i
  · subst hjp
    have hne : pairIdx i ≠ i := pairIdx_ne i
    rw [arcFlow_setFlowAt_self _ _ (by rw [length_setFlowAt]; exact hp)]
    simp [hne]
  · rw [arcFlow_setFlowAt_ne _ _ hjp]
    by_cases hji : j = i
    · subst hji
      rw [arcFlow_setFlowAt_self _ _ hi]
      simp [hjp]
    · rw [arcFlow_setFlowAt_ne _ _ hji]
      simp [hji, hjp]

theorem labels_decFlow (g : Graph) (b : Int) (i : Nat) :
    (decFlow g b i).labels = g.labels := labels_setFlowAt g i _

theorem length_decFlow (g : Graph) (b : Int) (i : Nat) :
    (decFlow g b i).arcs.length = g.arcs.length := length_setFlowAt g i _

theorem arcSrc_decFlow (g : Graph) (b : Int) (i j : Nat) :
    arcSrc (decFlow g b i) j = arcSrc g j := arcSrc_setFlowAt g i _ j

theorem arcDst_decFlow (g : Graph) (b : Int) (i j : Nat) :
    arcDst (decFlow g b i) j = arcDst g j := arcDst_setFlowAt g i _ j

theorem arcCap_decFlow (g : Graph) (b : Int) (i j : Nat) :
    arcCap (decFlow g b i) j = arcCap g j := arcCap_setFlowAt g i _ j

theorem arcCost_decFlow (g : Graph) (b : Int) (i j : Nat) :
    arcCost (decFlow g b i) j = arcCost g j := arcCost_setFlowAt g i _ j

theorem arcFlow_decFlow (g : Graph) (b : Int) {i : Nat}
    (hi : i < g.arcs.length) (j : Nat) :
    arcFlow (decFlow g b i) j = arcFlow g j - (if j = i then b else 0) := by
  unfold decFlow
  by_cases hji : j = i
  · subst hji; rw [arcFlow_setFlowAt_self _ _ hi]; simp
  · rw [arcFlow_setFlowAt_ne _ _ hji]; simp [hji]

theorem residAt_eq (g : Graph) (i : Nat) :
    residAt g i = arcCap g i - arcFlow g i := by
  unfold residAt arcCap arcFlow residual
  cases g.arcs.get? i <;> simp

theorem listMin_le {x : Int} : ∀ (l : List Int), x ∈ l → listMin l ≤ x
  | [], h => absurd h (List.not_mem_nil x)
  | [y], h => by
    rcases List.mem_singleton.mp h with rfl
    exact le_refl _
  | y :: z :: m, h => by
    rcases List.mem_cons.mp h with rfl | h2
    · exact min_le_left _ _
    · exact le_trans (min_le_right _ _) (listMin_le (z :: m) h2)

theorem le_listMin {c : Int} : ∀ (l : List Int), l ≠ [] → (∀ x ∈ l, c ≤ x) →
    c ≤ listMin l
  | [], h, _ => absurd rfl h
  | [y], _, h => h y (List.mem_singleton.mpr rfl)
  | y :: z :: m, _, h => by
    have h1 := h y (List.mem_cons_self y _)
    have h2 := le_listMin (z :: m) (by simp)
      (fun x hx => h x (List.mem_cons_of_mem _ hx))
    exact le_min h1 h2

theorem sum_two_point_update (n : Nat) (F G : Nat → Int) (d e : Int)
    {i p : Nat} (hi : i < n) (hp : p < n) (hip : p ≠ i)
    (hF : ∀ j, j < n →
      G j = F j + (if j = i then d else 0) - (if j = p then e else 0)) :
    ∑ j in Finset.range n, G j = (∑ j in Finset.range n, F j) + d - e := by
  have h1 : ∑ j in Finset.range n, G j =
      ∑ j in Finset.range n,
        (F j + (if j = i then d else 0) - (if j = p then e else 0)) :=
    Finset.sum_congr rfl (fun j hj => hF j (Finset.mem_range.mp hj))
  rw [h1]
  rw [Finset.sum_sub_distrib, Finset.sum_add_distrib]
  rw [Finset.sum_ite_eq' (Finset.range n) i (fun _ => d),
    Finset.sum_ite_eq' (Finset.range n) p (fun _ => e)]
  simp [Finset.mem_range.mpr hi, Finset.mem_range.mpr hp]

theorem sum_one_point_update (n : Nat) (F G : Nat → Int) (e : Int)
    {p : Nat} (hp : p < n)
    (hF : ∀ j, j < n → G j = F j - (if j = p then e else 0)) :
    ∑ j in Finset.range n, G j = (∑ j in Finset.range n, F j) - e := by
  have h1 : ∑ j in Finset.range n, G j =
      ∑ j in Finset.range n, (F j - (if j = p then e else 0)) :=
    Finset.sum_congr rfl (fun j hj => hF j (Finset.mem_range.mp hj))
  rw [h1, Finset.sum_sub_distrib,
    Finset.sum_ite_eq' (Finset.range n) p (fun _ => e)]
  simp [Finset.mem_range.mpr hp]

end Mcmf

namespace Mcmf

theorem sum_ite_pushArc (g : Graph) (b : Int) {i : Nat}
    (hlen : g.arcs.length % 2 = 0) (hi : i < g.arcs.length)
    (P : Nat → Prop) [DecidablePred P] :
    ∑ j in Finset.range g.arcs.length,
        (if P j then arcFlow (pushArc g b i) j else 0)
      = (∑ j in Finset.range g.arcs.length, if P j then arcFlow g j else 0)
        + (if P i then b else 0) - (if P (pairIdx i) then b else 0) := by
  have hp : pairIdx i < g.arcs.length := pairIdx_lt hlen hi
  apply sum_two_point_update _ _ _ _ _ hi hp (pairIdx_ne i)
  intro j hj
  rw [arcFlow_pushArc g b hi hp j]
  have hne : i ≠ pairIdx i := fun h => pairIdx_ne i h.symm
  by_cases hji : j = i
  · subst hji
    simp only [if_pos rfl, if_neg hne]
    by_cases hP : P j <;> simp [hP]
  · by_cases hjp : j = pairIdx i
    · subst hjp
      simp only [if_pos rfl, if_neg hji]
      by_cases hP : P (pairIdx i) <;> simp [hP]
    · by_cases hP : P j <;> simp [hP, hji, hjp]

theorem sum_ite_mul_pushArc (g : Graph) (b : Int) {i : Nat}
    (hlen : g.arcs.length % 2 = 0) (hi : i < g.arcs.length)
    (P : Nat → Prop) [DecidablePred P] (c : Nat → Int) :
    ∑ j in Finset.range g.arcs.length,
        (if P j then arcFlow (pushArc g b i) j * c j else 0)
      = (∑ j in Finset.range g.arcs.length, if P j then arcFlow g j * c j else 0)
        + (if P i then b * c i else 0)
        - (if P (pairIdx i) then b * c (pairIdx i) else 0) := by
  have hp : pairIdx i < g.arcs.length := pairIdx_lt hlen hi
  apply sum_two_point_update _ _ _ _ _ hi hp (pairIdx_ne i)
  intro j hj
  rw [arcFlow_pushArc g b hi hp j]
  have hne : i ≠ pairIdx i := fun h => pairIdx_ne i h.symm
  by_cases hji : j = i
  · subst hji
    simp only [if_pos rfl, if_neg hne]
    by_cases hP : P j <;> simp [hP] <;> ring
  · by_cases hjp : j = pairIdx i
    · subst hjp
      simp only [if_pos rfl, if_neg hji]
      by_cases hP : P (pairIdx i) <;> simp [hP] <;> ring
    · by_cases hP : P j <;> simp [hP, hji, hjp]

theorem sum_ite_decFlow (g : Graph) (b : Int) {i : Nat}
    (hi : i < g.arcs.length) (P : Nat → Prop) [DecidablePred P] :
    ∑ j in Finset.range g.arcs.length,
        (if P j then arcFlow (decFlow g b i) j else 0)
      = (∑ j in Finset.range g.arcs.length, if P j then arcFlow g j else 0)
        - (if P i then b else 0) := by
  apply sum_one_point_update _ _ _ _ hi
  intro j hj
  rw [arcFlow_decFlow g b hi j]
  by_cases hji : j = i
  · subst hji
    by_cases hP : P j <;> simp [hP]
  · by_cases hP : P j <;> simp [hP, hji]

theorem sum_ite_mul_decFlow (g : Graph) (b : Int) {i : Nat}
    (hi : i < g.arcs.length) (P : Nat → Prop) [DecidablePred P] (c : Nat → Int) :
    ∑ j in Finset.range g.arcs.length,
        (if P j then arcFlow (decFlow g b i) j * c j else 0)
      = (∑ j in Finset.range g.arcs.length, if P j then arcFlow g j * c j else 0)
        - (if P i then b * c i else 0) := by
  apply sum_one_point_update _ _ _ _ hi
  intro j hj
  rw [arcFlow_decFlow g b hi j]
  by_cases hji : j = i
  · subst hji
    by_cases hP : P j <;> simp [hP] <;> ring
  · by_cases hP : P j <;> simp [hP, hji]

end Mcmf

namespace Mcmf

theorem netOut_pushArc (g : Graph) (b : Int) {i : Nat}
    (hlen : g.arcs.length % 2 = 0) (hi : i < g.arcs.length) (v : Nat) :
    netOut (pushArc g b i) v = netOut g v + (if arcSrc g i = v then b else 0)
      - (if arcSrc g (pairIdx i) = v then b else 0) := by
  unfold netOut
  rw [length_pushArc]
  rw [Finset.sum_congr rfl (fun j _ => by rw [arcSrc_pushArc])]
  exact sum_ite_pushArc g b hlen hi (fun j => arcSrc g j = v)

theorem fwdOut_pushArc (g : Graph) (b : Int) {i : Nat}
    (hlen : g.arcs.length % 2 = 0) (hi : i < g.arcs.length) (v : Nat) :
    fwdOut (pushArc g b i) v = fwdOut g v
      + (if i % 2 = 0 ∧ arcSrc g i = v then b else 0)
      - (if pairIdx i % 2 = 0 ∧ arcSrc g (pairIdx i) = v then b else 0) := by
  unfold fwdOut
  rw [length_pushArc]
  rw [Finset.sum_congr rfl (fun j _ => by rw [arcSrc_pushArc])]
  exact sum_ite_pushArc g b hlen hi (fun j => j % 2 = 0 ∧ arcSrc g j = v)

theorem fwdIn_pushArc (g : Graph) (b : Int) {i : Nat}
    (hlen : g.arcs.length % 2 = 0) (hi : i < g.arcs.length) (v : Nat) :
    fwdIn (pushArc g b i) v = fwdIn g v
      + (if i % 2 = 0 ∧ arcDst g i = v then b else 0)
      - (if pairIdx i % 2 = 0 ∧ arcDst g (pairIdx i) = v then b else 0) := by
  unfold fwdIn
  rw [length_pushArc]
  rw [Finset.sum_congr rfl (fun j _ => by rw [arcDst_pushArc])]
  exact sum_ite_pushArc g b hlen hi (fun j => j % 2 = 0 ∧ arcDst g j = v)

theorem fwdSum_pushArc (g : Graph) (b : Int) {i : Nat}
    (hlen : g.arcs.length % 2 = 0) (hi : i < g.arcs.length) :
    fwdSum (pushArc g b i) = fwdSum g
      + (if i % 2 = 0 then b * arcCost g i else 0)
      - (if pairIdx i % 2 = 0 then b * arcCost g (pairIdx i) else 0) := by
  unfold fwdSum
  rw [length_pushArc]
  rw [Finset.sum_congr rfl (fun j _ => by rw [arcCost_pushArc])]
  exact sum_ite_mul_pushArc g b hlen hi (fun j => j % 2 = 0) (arcCost g)

theorem sumFwdFlow_pushArc (g : Graph) (b : Int) {i : Nat}
    (hlen : g.arcs.length % 2 = 0) (hi : i < g.arcs.length) :
    sumFwdFlow (pushArc g b i) = sumFwdFlow g
      + (if i % 2 = 0 then b else 0) - (if pairIdx i % 2 = 0 then b else 0) := by
  unfold sumFwdFlow
  rw [length_pushArc]
  exact sum_ite_pushArc g b hlen hi (fun j => j % 2 = 0)

theorem fwdOut_decFlow (g : Graph) (b : Int) {i : Nat}
    (hi : i < g.arcs.length) (v : Nat) :
    fwdOut (decFlow g b i) v = fwdOut g v
      - (if i % 2 = 0 ∧ arcSrc g i = v then b else 0) := by
  unfold fwdOut
  rw [length_decFlow]
  rw [Finset.sum_congr rfl (fun j _ => by rw [arcSrc_decFlow])]
  exact sum_ite_decFlow g b hi (fun j => j % 2 = 0 ∧ arcSrc g j = v)

theorem fwdIn_decFlow (g : Graph) (b : Int) {i : Nat}
    (hi : i < g.arcs.length) (v : Nat) :
    fwdIn (decFlow g b i) v = fwdIn g v
      - (if i % 2 = 0 ∧ arcDst g i = v then b else 0) := by
  unfold fwdIn
  rw [length_decFlow]
  rw [Finset.sum_congr rfl (fun j _ => by rw [arcDst_decFlow])]
  exact sum_ite_decFlow g b hi (fun j => j % 2 = 0 ∧ arcDst g j = v)

theorem fwdSum_decFlow (g : Graph) (b : Int) {i : Nat}
    (hi : i < g.arcs.length) :
    fwdSum (decFlow g b i) = fwdSum g
      - (if i % 2 = 0 then b * arcCost g i else 0) := by
  unfold fwdSum
  rw [length_decFlow]
  rw [Finset.sum_congr rfl (fun j _ => by rw [arcCost_decFlow])]
  exact sum_ite_mul_decFlow g b hi (fun j => j % 2 = 0) (arcCost g)

theorem sumFwdFlow_decFlow (g : Graph) (b : Int) {i : Nat}
    (hi : i < g.arcs.length) :
    sumFwdFlow (decFlow g b i) = sumFwdFlow g
      - (if i % 2 = 0 then b else 0) := by
  unfold sumFwdFlow
  rw [length_decFlow]
  exact sum_ite_decFlow g b hi (fun j => j % 2 = 0)

theorem numNodes_setFlowAt (g : Graph) (i : Nat) (f : Int) :
    numNodes (setFlowAt g i f) = numNodes g := by
  unfold numNodes; rw [labels_setFlowAt]

theorem Wf_setFlowAt (g : Graph) (i : Nat) (f : Int) (hW : Wf g) :
    Wf (setFlowAt g i f) := by
  obtain ⟨h1, h2, h3, h4⟩ := hW
  refine ⟨?_, ?_, ?_, ?_⟩
  · rw [length_setFlowAt]; exact h1
  · intro j hj
    rw [length_setFlowAt] at hj
    rw [arcSrc_setFlowAt, arcDst_setFlowAt, arcCost_setFlowAt, arcCost_setFlowAt]
    exact h2 j hj
  · intro j hj hev
    rw [length_setFlowAt] at hj
    rw [arcCap_setFlowAt, arcCap_setFlowAt]
    exact h3 j hj hev
  · intro j hj
    rw [length_setFlowAt] at hj
    rw [arcSrc_setFlowAt, arcDst_setFlowAt, numNodes_setFlowAt]
    exact h4 j hj

theorem Wf_pushArc (g : Graph) (b : Int) (i : Nat) (hW : Wf g) :
    Wf (pushArc g b i) := Wf_setFlowAt _ _ _ (Wf_setFlowAt _ _ _ hW)

theorem Wf_decFlow (g : Graph) (b : Int) (i : Nat) (hW : Wf g) :
    Wf (decFlow g b i) := Wf_setFlowAt _ _ _ hW

theorem pairIdx_eq_pairIdx_iff {i j : Nat} : pairIdx j = pairIdx i ↔ j = i := by
  constructor
  · intro h
    have := congrArg pairIdx h
    rwa [pairIdx_invol, pairIdx_invol] at this
  · intro h; rw [h]

theorem FlowInv_pushArc (g : Graph) {b : Int} {i : Nat} (hW : Wf g)
    (hF : FlowInv g) (hb : 0 < b) (hi : i < g.arcs.length)
    (hres : b ≤ residAt g i) : FlowInv (pushArc g b i) := by
  obtain ⟨hlen, hpair, hcap, _⟩ := hW
  obtain ⟨hA, hB⟩ := hF
  have hp : pairIdx i < g.arcs.length := pairIdx_lt hlen hi
  constructor
  · intro j hj
    rw [length_pushArc] at hj
    have hpj : pairIdx j < g.arcs.length := pairIdx_lt hlen hj
    rw [arcFlow_pushArc g b hi hp _, arcFlow_pushArc g b hi hp _]
    have e1 : (pairIdx j = i) = (j = pairIdx i) := propext pairIdx_eq_iff
    have e2 : (pairIdx j = pairIdx i) = (j = i) := propext pairIdx_eq_pairIdx_iff
    simp only [e1, e2]
    rw [hA j hj]
    ring
  · intro j hj hev
    rw [length_pushArc] at hj
    rw [arcFlow_pushArc g b hi hp _, arcCap_pushArc]
    by_cases hji : j = i
    · subst hji
      have hne : j ≠ pairIdx j := fun h => pairIdx_ne j h.symm
      rw [if_pos rfl, if_neg hne]
      have hbd := hB j hj hev
      have hr := hres
      rw [residAt_eq] at hr
      constructor
      · omega
      · omega
    · by_cases hjp : j = pairIdx i
      · have hij : i = pairIdx j := by
          rw [hjp, pairIdx_invol]
        rw [if_neg hji, if_pos hjp]
        have hbd := hB j hj hev
        have hcap0 : arcCap g (pairIdx j) = 0 := (hcap j hj hev).2
        have hanti : arcFlow g (pairIdx j) = -(arcFlow g j) := hA j hj
        have hr := hres
        rw [residAt_eq, hij, hcap0, hanti] at hr
        constructor
        · omega
        · omega
      · rw [if_neg hji, if_neg hjp]
        have hbd := hB j hj hev
        omega

end Mcmf

namespace Mcmf

theorem pushPath_cons (g : Graph) (b : Int) (i : Nat) (l : List Nat) :
    pushPath g b (i :: l) = pushPath (pushArc g b i) b l := rfl

theorem pushPath_nil (g : Graph) (b : Int) : pushPath g b [] = g := rfl

theorem decPath_cons (g : Graph) (b : Int) (i : Nat) (l : List Nat) :
    decPath g b (i :: l) = decPath (decFlow g b i) b l := rfl

theorem decPath_nil (g : Graph) (b : Int) : decPath g b [] = g := rfl

theorem length_pushPath (b : Int) :
    ∀ (l : List Nat) (g : Graph), (pushPath g b l).arcs.length = g.arcs.length
  | [], _ => rfl
  | i :: is, g => by
    rw [pushPath_cons, length_pushPath b is, length_pushArc]

theorem labels_pushPath (b : Int) :
    ∀ (l : List Nat) (g : Graph), (pushPath g b l).labels = g.labels
  | [], _ => rfl
  | i :: is, g => by
    rw [pushPath_cons, labels_pushPath b is, labels_pushArc]

theorem arcSrc_pushPath (b : Int) :
    ∀ (l : List Nat) (g : Graph) (j : Nat),
      arcSrc (pushPath g b l) j = arcSrc g j
  | [], _, _ => rfl
  | i :: is, g, j => by
    rw [pushPath_cons, arcSrc_pushPath b is, arcSrc_pushArc]

theorem arcDst_pushPath (b : Int) :
    ∀ (l : List Nat) (g : Graph) (j : Nat),
      arcDst (pushPath g b l) j = arcDst g j
  | [], _, _ => rfl
  | i :: is, g, j => by
    rw [pushPath_cons, arcDst_pushPath b is, arcDst_pushArc]

theorem arcCap_pushPath (b : Int) :
    ∀ (l : List Nat) (g : Graph) (j : Nat),
      arcCap (pushPath g b l) j = arcCap g j
  | [], _, _ => rfl
  | i :: is, g, j => by
    rw [pushPath_cons, arcCap_pushPath b is, arcCap_pushArc]

theorem arcCost_pushPath (b : Int) :
    ∀ (l : List Nat) (g : Graph) (j : Nat),
      arcCost (pushPath g b l) j = arcCost g j
  | [], _, _ => rfl
  | i :: is, g, j => by
    rw [pushPath_cons, arcCost_pushPath b is, arcCost_pushArc]

theorem length_decPath (b : Int) :
    ∀ (l : List Nat) (g : Graph), (decPath g b l).arcs.length = g.arcs.length
  | [], _ => rfl
  | i :: is, g => by
    rw [decPath_cons, length_decPath b is, length_decFlow]

theorem labels_decPath (b : Int) :
    ∀ (l : List Nat) (g : Graph), (decPath g b l).labels = g.labels
  | [], _ => rfl
  | i :: is, g => by
    rw [decPath_cons, labels_decPath b is, labels_decFlow]

theorem arcSrc_decPath (b : Int) :
    ∀ (l : List Nat) (g : Graph) (j : Nat), arcSrc (decPath g b l) j = arcSrc g j
  | [], _, _ => rfl
  | i :: is, g, j => by
    rw [decPath_cons, arcSrc_decPath b is, arcSrc_decFlow]

theorem arcDst_decPath (b : Int) :
    ∀ (l : List Nat) (g : Graph) (j : Nat), arcDst (decPath g b l) j = arcDst g j
  | [], _, _ => rfl
  | i :: is, g, j => by
    rw [decPath_cons, arcDst_decPath b is, arcDst_decFlow]

theorem arcCap_decPath (b : Int) :
    ∀ (l : List Nat) (g : Graph) (j : Nat), arcCap (decPath g b l) j = arcCap g j
  | [], _, _ => rfl
  | i :: is, g, j => by
    rw [decPath_cons, arcCap_decPath b is, arcCap_decFlow]

theorem arcCost_decPath (b : Int) :
    ∀ (l : List Nat) (g : Graph) (j : Nat),
      arcCost (decPath g b l) j = arcCost g j
  | [], _, _ => rfl
  | i :: is, g, j => by
    rw [decPath_cons, arcCost_decPath b is, arcCost_decFlow]

theorem chainOk_congr {g h : Graph} (hl : h.arcs.length = g.arcs.length)
    (hsrc : ∀ i, arcSrc h i = arcSrc g i)
    (hdst : ∀ i, arcDst h i = arcDst g i) :
    ∀ {l : List Nat} {u w : Nat}, chainOk g u l w → chainOk h u l w := by
  intro l
  induction l with
  | nil => intro u w hch; exact hch
  | cons i is ih =>
    intro u w hch
    obtain ⟨hi, hs, hc⟩ := hch
    exact ⟨by rw [hl]; exact hi, by rw [hsrc]; exact hs,
      by rw [hdst]; exact ih hc⟩

theorem chainOk_pushArc {g : Graph} {b : Int} {k : Nat} {l : List Nat}
    {u w : Nat} (h : chainOk g u l w) : chainOk (pushArc g b k) u l w :=
  chainOk_congr (length_pushArc g b k) (arcSrc_pushArc g b k)
    (arcDst_pushArc g b k) h

theorem chainOk_decFlow {g : Graph} {b : Int} {k : Nat} {l : List Nat}
    {u w : Nat} (h : chainOk g u l w) : chainOk (decFlow g b k) u l w :=
  chainOk_congr (length_decFlow g b k) (arcSrc_decFlow g b k)
    (arcDst_decFlow g b k) h

theorem netOut_pushPath (b : Int) :
    ∀ (l : List Nat) (g : Graph) (u : Nat) {w v : Nat}, Wf g →
      chainOk g u l w →
      netOut (pushPath g b l) v = netOut g v + (if u = v then b else 0)
        - (if w = v then b else 0)
  | [], g, u, w, v, _, hch => by
    obtain rfl : u = w := hch
    rw [pushPath_nil]
    split_ifs <;> ring
  | i :: is, g, u, w, v, hW, hch => by
    obtain ⟨hi, hsrc, hch'⟩ := hch
    rw [pushPath_cons]
    rw [netOut_pushPath b is (pushArc g b i) (arcDst g i) (Wf_pushArc g b i hW)
      (chainOk_pushArc hch')]
    rw [netOut_pushArc g b hW.1 hi v]
    have hpair := (hW.2.1 i hi).1
    rw [hsrc, hpair]
    split_ifs <;> omega

theorem fwdDiff_pushPath (b : Int) :
    ∀ (l : List Nat) (g : Graph) (u : Nat) {w v : Nat}, Wf g →
      chainOk g u l w → (∀ i ∈ l, i % 2 = 0) →
      fwdOut (pushPath g b l) v - fwdIn (pushPath g b l) v
        = (fwdOut g v - fwdIn g v) + (if u = v then b else 0)
          - (if w = v then b else 0)
  | [], g, u, w, v, _, hch, _ => by
    obtain rfl : u = w := hch
    rw [pushPath_nil]
    split_ifs <;> ring
  | i :: is, g, u, w, v, hW, hch, hev => by
    obtain ⟨hi, hsrc, hch'⟩ := hch
    have hie : i % 2 = 0 := hev i (List.mem_cons_self i is)
    rw [pushPath_cons]
    rw [fwdDiff_pushPath b is (pushArc g b i) (arcDst g i) (Wf_pushArc g b i hW)
      (chainOk_pushArc hch') (fun j hj => hev j (List.mem_cons_of_mem i hj))]
    rw [fwdOut_pushArc g b hW.1 hi v, fwdIn_pushArc g b hW.1 hi v]
    have hpair := (hW.2.1 i hi).1
    have hpair2 : arcDst g (pairIdx i) = arcSrc g i := by
      have h2 := (hW.2.1 (pairIdx i) (pairIdx_lt hW.1 hi)).1
      rw [pairIdx_invol] at h2
      exact h2.symm
    have hodd : ¬ (pairIdx i % 2 = 0) := by
      rw [pairIdx_even hie]; omega
    rw [hsrc, hpair, hpair2]
    simp only [hie, hodd, true_and, false_and, if_true, if_false]
    split_ifs <;> omega

theorem fwdDiff_decPath (b : Int) :
    ∀ (l : List Nat) (g : Graph) (u : Nat) {w v : Nat},
      chainOk g u l w → (∀ i ∈ l, i % 2 = 0) →
      fwdOut (decPath g b l) v - fwdIn (decPath g b l) v
        = (fwdOut g v - fwdIn g v) - (if u = v then b else 0)
          + (if w = v then b else 0)
  | [], g, u, w, v, hch, _ => by
    obtain rfl : u = w := hch
    rw [decPath_nil]
    split_ifs <;> ring
  | i :: is, g, u, w, v, hch, hev => by
    obtain ⟨hi, hsrc, hch'⟩ := hch
    have hie : i % 2 = 0 := hev i (List.mem_cons_self i is)
    rw [decPath_cons]
    rw [fwdDiff_decPath b is (decFlow g b i) (arcDst g i)
      (chainOk_decFlow hch') (fun j hj => hev j (List.mem_cons_of_mem i hj))]
    rw [fwdOut_decFlow g b hi v, fwdIn_decFlow g b hi v]
    rw [hsrc]
    simp only [hie, true_and]
    split_ifs <;> omega

theorem fwdOut_decPath_of_no_src (b : Int) :
    ∀ (l : List Nat) (g : Graph) {v : Nat},
      (∀ i ∈ l, i < g.arcs.length ∧ arcSrc g i ≠ v) →
      fwdOut (decPath g b l) v = fwdOut g v
  | [], g, v, _ => rfl
  | i :: is, g, v, h => by
    obtain ⟨hi, hsrc⟩ := h i (List.mem_cons_self i is)
    rw [decPath_cons]
    rw [fwdOut_decPath_of_no_src b is (decFlow g b i) (fun j hj => by
      obtain ⟨h1, h2⟩ := h j (List.mem_cons_of_mem i hj)
      exact ⟨by rw [length_decFlow]; exact h1, by rw [arcSrc_decFlow]; exact h2⟩)]
    rw [fwdOut_decFlow g b hi v]
    simp [hsrc]

theorem fwdIn_decPath_of_no_dst (b : Int) :
    ∀ (l : List Nat) (g : Graph) {v : Nat},
      (∀ i ∈ l, i < g.arcs.length ∧ arcDst g i ≠ v) →
      fwdIn (decPath g b l) v = fwdIn g v
  | [], g, v, _ => rfl
  | i :: is, g, v, h => by
    obtain ⟨hi, hdst⟩ := h i (List.mem_cons_self i is)
    rw [decPath_cons]
    rw [fwdIn_decPath_of_no_dst b is (decFlow g b i) (fun j hj => by
      obtain ⟨h1, h2⟩ := h j (List.mem_cons_of_mem i hj)
      exact ⟨by rw [length_decFlow]; exact h1, by rw [arcDst_decFlow]; exact h2⟩)]
    rw [fwdIn_decFlow g b hi v]
    simp [hdst]

theorem pathCost_congr {g h : Graph} (hc : ∀ i, arcCost h i = arcCost g i)
    (l : List Nat) : pathCost h l = pathCost g l := by
  unfold pathCost
  congr 1
  exact List.map_congr_left (fun i _ => hc i)

theorem fwdSum_decPath (b : Int) :
    ∀ (l : List Nat) (g : Graph),
      (∀ i ∈ l, i < g.arcs.length ∧ i % 2 = 0) →
      fwdSum (decPath g b l) = fwdSum g - b * pathCost g l
  | [], g, _ => by
    rw [decPath_nil]
    unfold pathCost
    simp
  | i :: is, g, h => by
    obtain ⟨hi, hie⟩ := h i (List.mem_cons_self i is)
    rw [decPath_cons]
    rw [fwdSum_decPath b is (decFlow g b i) (fun j hj => by
      obtain ⟨h1, h2⟩ := h j (List.mem_cons_of_mem i hj)
      exact ⟨by rw [length_decFlow]; exact h1, h2⟩)]
    rw [fwdSum_decFlow g b hi]
    rw [pathCost_congr (arcCost_decFlow g b i) is]
    have hPC : pathCost g (i :: is) = arcCost g i + pathCost g is := by
      unfold pathCost
      simp
    rw [hPC]
    simp only [hie, if_true]
    ring

theorem sumFwdFlow_decPath (b : Int) :
    ∀ (l : List Nat) (g : Graph),
      (∀ i ∈ l, i < g.arcs.length ∧ i % 2 = 0) →
      sumFwdFlow (decPath g b l) = sumFwdFlow g - b * l.length
  | [], g, _ => by
    rw [decPath_nil]
    simp
  | i :: is, g, h => by
    obtain ⟨hi, hie⟩ := h i (List.mem_cons_self i is)
    rw [decPath_cons]
    rw [sumFwdFlow_decPath b is (decFlow g b i) (fun j hj => by
      obtain ⟨h1, h2⟩ := h j (List.mem_cons_of_mem i hj)
      exact ⟨by rw [length_decFlow]; exact h1, h2⟩)]
    rw [sumFwdFlow_decFlow g b hi]
    simp only [hie, if_true]
    have : ((i :: is).length : Int) = (is.length : Int) + 1 := by
      simp
    rw [this]
    ring

end Mcmf

namespace Mcmf

theorem residAt_pushArc (g : Graph) (b : Int) {i : Nat}
    (hi : i < g.arcs.length) (hp : pairIdx i < g.arcs.length) (j : Nat) :
    residAt (pushArc g b i) j = residAt g j - (if j = i then b else 0)
      + (if j = pairIdx i then b else 0) := by
  rw [residAt_eq, residAt_eq, arcCap_pushArc, arcFlow_pushArc g b hi hp j]
  ring

theorem fwdSum_pushPath (b : Int) :
    ∀ (l : List Nat) (g : Graph), Wf g → (∀ i ∈ l, i < g.arcs.length) →
      fwdSum (pushPath g b l) = fwdSum g + b * pathCost g l
  | [], g, _, _ => by
    rw [pushPath_nil]
    unfold pathCost
    simp
  | i :: is, g, hW, h => by
    have hi := h i (List.mem_cons_self i is)
    rw [pushPath_cons]
    rw [fwdSum_pushPath b is (pushArc g b i) (Wf_pushArc g b i hW) (fun j hj => by
      rw [length_pushArc]; exact h j (List.mem_cons_of_mem i hj))]
    rw [fwdSum_pushArc g b hW.1 hi]
    rw [pathCost_congr (arcCost_pushArc g b i) is]
    have hPC : pathCost g (i :: is) = arcCost g i + pathCost g is := by
      unfold pathCost
      simp
    rw [hPC]
    have hcostpair : arcCost g (pairIdx i) = -(arcCost g i) := (hW.2.1 i hi).2
    rcases Nat.even_or_odd i with he | ho
    · have hie : i % 2 = 0 := Nat.even_iff.mp he
      have hodd : ¬ (pairIdx i % 2 = 0) := by
        rw [pairIdx_even hie]; omega
      simp only [hie, hodd, if_true, if_false]
      ring
    · have hio : i % 2 = 1 := Nat.odd_iff.mp ho
      have hie : ¬ (i % 2 = 0) := by omega
      have hpe : pairIdx i % 2 = 0 := by
        rw [pairIdx_odd hio]; omega
      simp only [hie, hpe, if_true, if_false]
      rw [hcostpair]
      ring

theorem FlowInv_pushPath (b : Int) :
    ∀ (l : List Nat) (g : Graph), Wf g → FlowInv g → 0 < b → l.Nodup →
      (∀ i ∈ l, i < g.arcs.length ∧ b ≤ residAt g i) →
      FlowInv (pushPath g b l)
  | [], g, _, hF, _, _, _ => hF
  | i :: is, g, hW, hF, hb, hnd, h => by
    obtain ⟨hi, hres⟩ := h i (List.mem_cons_self i is)
    rw [pushPath_cons]
    have hp : pairIdx i < g.arcs.length := pairIdx_lt hW.1 hi
    apply FlowInv_pushPath b is (pushArc g b i) (Wf_pushArc g b i hW)
      (FlowInv_pushArc g hW hF hb hi hres) hb (List.Nodup.of_cons hnd)
    intro j hj
    obtain ⟨hjl, hjres⟩ := h j (List.mem_cons_of_mem i hj)
    have hji : j ≠ i := by
      intro hcontra
      subst hcontra
      exact (List.nodup_cons.mp hnd).1 hj
    refine ⟨by rw [length_pushArc]; exact hjl, ?_⟩
    rw [residAt_pushArc g b hi hp j]
    have hble : (0:Int) ≤ b := le_of_lt hb
    by_cases hjp : j = pairIdx i
    · rw [if_neg hji, if_pos hjp]; omega
    · rw [if_neg hji, if_neg hjp]; omega

theorem FwdBounds_decFlow (g : Graph) {b : Int} {i : Nat} (hb : 0 ≤ b)
    (hi : i < g.arcs.length) (hflow : b ≤ arcFlow g i)
    (hB : FwdBounds g) : FwdBounds (decFlow g b i) := by
  intro j hj hev
  rw [length_decFlow] at hj
  rw [arcFlow_decFlow g b hi j, arcCap_decFlow]
  have hbd := hB j hj hev
  by_cases hji : j = i
  · subst hji; simp; omega
  · simp [hji]; omega

theorem FwdBounds_decPath (b : Int) :
    ∀ (l : List Nat) (g : Graph), 0 ≤ b → l.Nodup →
      (∀ i ∈ l, i < g.arcs.length ∧ b ≤ arcFlow g i) →
      FwdBounds g → FwdBounds (decPath g b l)
  | [], g, _, _, _, hB => hB
  | i :: is, g, hb, hnd, h, hB => by
    obtain ⟨hi, hflow⟩ := h i (List.mem_cons_self i is)
    rw [decPath_cons]
    apply FwdBounds_decPath b is (decFlow g b i) hb (List.Nodup.of_cons hnd)
    · intro j hj
      obtain ⟨hjl, hjf⟩ := h j (List.mem_cons_of_mem i hj)
      have hji : j ≠ i := by
        intro hcontra
        subst hcontra
        exact (List.nodup_cons.mp hnd).1 hj
      refine ⟨by rw [length_decFlow]; exact hjl, ?_⟩
      rw [arcFlow_decFlow g b hi j]
      simp [hji]
      exact hjf
    · exact FwdBounds_decFlow g hb hi hflow hB

theorem fwdIn_nonneg {g : Graph} (hB : FwdBounds g) (v : Nat) :
    0 ≤ fwdIn g v := by
  unfold fwdIn
  apply Finset.sum_nonneg
  intro i hi
  by_cases hP : i % 2 = 0 ∧ arcDst g i = v
  · simp only [hP, if_true]
    exact (hB i (Finset.mem_range.mp hi) hP.1).1
  · simp [hP]

theorem fwdOut_nonneg {g : Graph} (hB : FwdBounds g) (v : Nat) :
    0 ≤ fwdOut g v := by
  unfold fwdOut
  apply Finset.sum_nonneg
  intro i hi
  by_cases hP : i % 2 = 0 ∧ arcSrc g i = v
  · simp only [hP, if_true]
    exact (hB i (Finset.mem_range.mp hi) hP.1).1
  · simp [hP]

theorem fwdIn_pushPath_le (b : Int) (hb : 0 ≤ b) :
    ∀ (l : List Nat) (g : Graph) {v : Nat}, Wf g →
      (∀ i ∈ l, i < g.arcs.length ∧ arcDst g i ≠ v) →
      fwdIn (pushPath g b l) v ≤ fwdIn g v
  | [], g, v, _, _ => le_refl _
  | i :: is, g, v, hW, h => by
    obtain ⟨hi, hdst⟩ := h i (List.mem_cons_self i is)
    rw [pushPath_cons]
    have step : fwdIn (pushArc g b i) v ≤ fwdIn g v := by
      rw [fwdIn_pushArc g b hW.1 hi v]
      have h1 : (if i % 2 = 0 ∧ arcDst g i = v then b else 0) = 0 := by
        simp [hdst]
      rw [h1]
      have h2 : (0:Int) ≤
          (if pairIdx i % 2 = 0 ∧ arcDst g (pairIdx i) = v then b else 0) := by
        split_ifs
        · exact hb
        · exact le_refl _
      omega
    calc fwdIn (pushPath (pushArc g b i) b is) v
        ≤ fwdIn (pushArc g b i) v := by
          apply fwdIn_pushPath_le b hb is (pushArc g b i) (Wf_pushArc g b i hW)
          intro j hj
          obtain ⟨h1, h2⟩ := h j (List.mem_cons_of_mem i hj)
          exact ⟨by rw [length_pushArc]; exact h1,
            by rw [arcDst_pushArc]; exact h2⟩
      _ ≤ fwdIn g v := step

theorem fwdOut_pushPath_le (b : Int) (hb : 0 ≤ b) :
    ∀ (l : List Nat) (g : Graph) {v : Nat}, Wf g →
      (∀ i ∈ l, i < g.arcs.length ∧ arcSrc g i ≠ v) →
      fwdOut (pushPath g b l) v ≤ fwdOut g v
  | [], g, v, _, _ => le_refl _
  | i :: is, g, v, hW, h => by
    obtain ⟨hi, hsrc⟩ := h i (List.mem_cons_self i is)
    rw [pushPath_cons]
    have step : fwdOut (pushArc g b i) v ≤ fwdOut g v := by
      rw [fwdOut_pushArc g b hW.1 hi v]
      have h1 : (if i % 2 = 0 ∧ arcSrc g i = v then b else 0) = 0 := by
        simp [hsrc]
      rw [h1]
      have h2 : (0:Int) ≤
          (if pairIdx i % 2 = 0 ∧ arcSrc g (pairIdx i) = v then b else 0) := by
        split_ifs
        · exact hb
        · exact le_refl _
      omega
    calc fwdOut (pushPath (pushArc g b i) b is) v
        ≤ fwdOut (pushArc g b i) v := by
          apply fwdOut_pushPath_le b hb is (pushArc g b i) (Wf_pushArc g b i hW)
          intro j hj
          obtain ⟨h1, h2⟩ := h j (List.mem_cons_of_mem i hj)
          exact ⟨by rw [length_pushArc]; exact h1,
            by rw [arcSrc_pushArc]; exact h2⟩
      _ ≤ fwdOut g v := step

theorem le_fwdIn_of_arc {g : Graph} (hB : FwdBounds g) {i v : Nat}
    (hi : i < g.arcs.length) (hev : i % 2 = 0) (hdst : arcDst g i = v) :
    arcFlow g i ≤ fwdIn g v := by
  unfold fwdIn
  have hmem : i ∈ Finset.range g.arcs.length := Finset.mem_range.mpr hi
  have := Finset.single_le_sum (f := fun j =>
    if j % 2 = 0 ∧ arcDst g j = v then arcFlow g j else 0)
    (fun j hj => by
      by_cases hP : j % 2 = 0 ∧ arcDst g j = v
      · simp only [hP, if_true]
        exact (hB j (Finset.mem_range.mp hj) hP.1).1
      · simp [hP]) hmem
  simpa [hev, hdst] using this

theorem le_fwdOut_of_arc {g : Graph} (hB : FwdBounds g) {i v : Nat}
    (hi : i < g.arcs.length) (hev : i % 2 = 0) (hsrc : arcSrc g i = v) :
    arcFlow g i ≤ fwdOut g v := by
  unfold fwdOut
  have hmem : i ∈ Finset.range g.arcs.length := Finset.mem_range.mpr hi
  have := Finset.single_le_sum (f := fun j =>
    if j % 2 = 0 ∧ arcSrc g j = v then arcFlow g j else 0)
    (fun j hj => by
      by_cases hP : j % 2 = 0 ∧ arcSrc g j = v
      · simp only [hP, if_true]
        exact (hB j (Finset.mem_range.mp hj) hP.1).1
      · simp [hP]) hmem
  simpa [hev, hsrc] using this

theorem exists_arc_of_fwdOut_pos {g : Graph} (hB : FwdBounds g) {v : Nat}
    (h : 0 < fwdOut g v) : ∃ i, i < g.arcs.length ∧ i % 2 = 0 ∧
      arcSrc g i = v ∧ 0 < arcFlow g i := by
  by_contra hno
  push_neg at hno
  have hzero : fwdOut g v = 0 := by
    unfold fwdOut
    apply Finset.sum_eq_zero
    intro i hi
    by_cases hP : i % 2 = 0 ∧ arcSrc g i = v
    · simp only [hP, if_true]
      have hle := hno i (Finset.mem_range.mp hi) hP.1 hP.2
      have hge := (hB i (Finset.mem_range.mp hi) hP.1).1
      omega
    · simp [hP]
  omega

theorem exists_arc_of_fwdIn_pos {g : Graph} (hB : FwdBounds g) {v : Nat}
    (h : 0 < fwdIn g v) : ∃ i, i < g.arcs.length ∧ i % 2 = 0 ∧
      arcDst g i = v ∧ 0 < arcFlow g i := by
  by_contra hno
  push_neg at hno
  have hzero : fwdIn g v = 0 := by
    unfold fwdIn
    apply Finset.sum_eq_zero
    intro i hi
    by_cases hP : i % 2 = 0 ∧ arcDst g i = v
    · simp only [hP, if_true]
      have hle := hno i (Finset.mem_range.mp hi) hP.1 hP.2
      have hge := (hB i (Finset.mem_range.mp hi) hP.1).1
      omega
    · simp [hP]
  omega

end Mcmf

namespace Mcmf

theorem getD_set_opt {α : Type} (l : List (Option α)) (w v : Nat)
    (x : Option α) :
    (l.set w x).getD v none =
      if w = v ∧ w < l.length then x else l.getD v none := by
  rw [List.getD_eq_getElem?_getD, List.getD_eq_getElem?_getD]
  by_cases hwv : w = v
  · subst hwv
    by_cases hw : w < l.length
    · rw [List.getElem?_set_self hw]
      simp [hw]
    · rw [List.set_eq_of_length_le (by omega)]
      simp [hw]
  · rw [List.getElem?_set_ne hwv]
    simp [hwv]

theorem getD_replicate_none {α : Type} (n v : Nat) :
    (List.replicate n (none : Option α)).getD v none = none := by
  rw [List.getD_eq_getElem?_getD, List.getElem?_replicate]
  split <;> rfl

theorem predOk_relaxArc {g : Graph} {pot : List Int} {st : BFState}
    (hP : PredOk g st.pred) (i : Nat) :
    PredOk g (relaxArc g pot st i).pred := by
  unfold relaxArc
  cases hgi : g.arcs.get? i with
  | none => exact hP
  | some a =>
    by_cases hres : residual a > 0
    · simp only [hres, if_true]
      have hset : PredOk g (st.pred.set a.dst (some i)) := by
        intro v k hvk
        rw [getD_set_opt] at hvk
        by_cases hcase : a.dst = v ∧ a.dst < st.pred.length
        · rw [if_pos hcase] at hvk
          cases hvk
          refine ⟨(List.get?_eq_some.mp hgi).1, ?_, ?_⟩
          · unfold arcDst; rw [hgi]; exact hcase.1
          · unfold residAt; rw [hgi]; exact hres
        · rw [if_neg hcase] at hvk
          exact hP v k hvk
      cases hds : st.dist.getD a.src none with
      | none => exact hP
      | some du =>
        cases hdd : st.dist.getD a.dst none with
        | some dv =>
          by_cases hlt : du + rcost pot a < dv
          · simp only [hlt, if_true]
            exact hset
          · simp only [hlt, if_false]
            exact hP
        | none => exact hset
    · simp only [hres, if_false]
      exact hP

theorem predOk_bfRound {g : Graph} {pot : List Int} {st : BFState}
    (hP : PredOk g st.pred) : PredOk g (bfRound g pot st).pred := by
  unfold bfRound
  generalize List.range g.arcs.length = l
  induction l generalizing st with
  | nil => exact hP
  | cons i is ih => exact ih (predOk_relaxArc hP i)

theorem predOk_iterate {g : Graph} {pot : List Int} :
    ∀ (n : Nat) (st : BFState), PredOk g st.pred →
      PredOk g (iterate (bfRound g pot) n st).pred
  | 0, st, hP => hP
  | n + 1, st, hP => predOk_iterate n (bfRound g pot st) (predOk_bfRound hP)

theorem predOk_bellmanFord (g : Graph) (pot : List Int) (s : Nat) :
    PredOk g (bellmanFord g pot s).pred := by
  unfold bellmanFord
  apply predOk_iterate
  intro v k hvk
  unfold bfInit at hvk
  rw [getD_replicate_none] at hvk
  cases hvk

theorem distReach_relaxArc {g : Graph} {pot : List Int} {st : BFState} {s : Nat}
    (hD : DistReach g s st.dist) (i : Nat) :
    DistReach g s (relaxArc g pot st i).dist := by
  unfold relaxArc
  cases hgi : g.arcs.get? i with
  | none => exact hD
  | some a =>
    by_cases hres : residual a > 0
    · simp only [hres, if_true]
      cases hds : st.dist.getD a.src none with
      | none => exact hD
      | some du =>
        have hreach_src : Reach g s a.src := hD a.src du hds
        have hstep : Reach g s a.dst := Reach.step hreach_src hgi rfl hres
        have hsetD : ∀ (x : Int), DistReach g s
            (st.dist.set a.dst (some (du + rcost pot a))) := by
          intro _ v d hvd
          rw [getD_set_opt] at hvd
          by_cases hcase : a.dst = v ∧ a.dst < st.dist.length
          · rw [if_pos hcase] at hvd
            rw [← hcase.1]
            exact hstep
          · rw [if_neg hcase] at hvd
            exact hD v d hvd
        cases hdd : st.dist.getD a.dst none with
        | some dv =>
          by_cases hlt : du + rcost pot a < dv
          · simp only [hlt, if_true]
            exact hsetD 0
          · simp only [hlt, if_false]
            exact hD
        | none => exact hsetD 0
    · simp only [hres, if_false]
      exact hD

theorem distReach_bfRound {g : Graph} {pot : List Int} {st : BFState} {s : Nat}
    (hD : DistReach g s st.dist) : DistReach g s (bfRound g pot st).dist := by
  unfold bfRound
  generalize List.range g.arcs.length = l
  induction l generalizing st with
  | nil => exact hD
  | cons i is ih => exact ih (distReach_relaxArc hD i)

theorem distReach_iterate {g : Graph} {pot : List Int} {s : Nat} :
    ∀ (n : Nat) (st : BFState), DistReach g s st.dist →
      DistReach g s (iterate (bfRound g pot) n st).dist
  | 0, _, hD => hD
  | n + 1, st, hD => distReach_iterate n (bfRound g pot st) (distReach_bfRound hD)

theorem distReach_bellmanFord (g : Graph) (pot : List Int) (s : Nat) :
    DistReach g s (bellmanFord g pot s).dist := by
  unfold bellmanFord
  apply distReach_iterate
  intro v d hvd
  unfold bfInit at hvd
  rw [List.getD_eq_getElem?_getD] at hvd
  by_cases hv : v < numNodes g
  · rw [List.getElem?_map, List.getElem?_range hv] at hvd
    by_cases hvs : v = s
    · subst hvs; exact Reach.refl
    · simp [hvs] at hvd
  · rw [List.getElem?_eq_none
      (by rw [List.length_map, List.length_range]; omega)] at hvd
    cases hvd

theorem chainOk_append {g : Graph} :
    ∀ {l1 l2 : List Nat} {u v w : Nat}, chainOk g u l1 v → chainOk g v l2 w →
      chainOk g u (l1 ++ l2) w
  | [], l2, u, v, w, h1, h2 => by
    obtain rfl : u = v := h1
    exact h2
  | i :: is, l2, u, v, w, h1, h2 => by
    obtain ⟨hi, hs, hc⟩ := h1
    exact ⟨hi, hs, chainOk_append hc h2⟩

theorem chainOk_last_mem {g : Graph} :
    ∀ {l : List Nat} {u w : Nat}, chainOk g u l w → l ≠ [] →
      w ∈ l.map (arcDst g)
  | [], _, _, _, hne => absurd rfl hne
  | [i], u, w, h, _ => by
    obtain ⟨_, _, hc⟩ := h
    obtain rfl : arcDst g i = w := hc
    simp
  | i :: j :: is, u, w, h, _ => by
    obtain ⟨_, _, hc⟩ := h
    have := chainOk_last_mem hc (by simp)
    simp only [List.map_cons, List.mem_cons]
    right
    simpa using this

theorem chainOk_src_ne_end {g : Graph} :
    ∀ {l : List Nat} {u w : Nat}, chainOk g u l w →
      (l.map (arcDst g)).Nodup → u ≠ w → ∀ i ∈ l, arcSrc g i ≠ w
  | [], _, _, _, _, _ => by intro i hi; cases hi
  | i :: is, u, w, h, hnd, huw => by
    obtain ⟨hi, hs, hc⟩ := h
    intro j hj
    rcases List.mem_cons.mp hj with rfl | hj2
    · rw [hs]; exact huw
    · cases his : is with
      | nil => subst his; cases hj2
      | cons k ks =>
        subst his
        have hdnew : arcDst g i ≠ w := by
          have hw : w ∈ (k :: ks).map (arcDst g) :=
            chainOk_last_mem hc (by simp)
          have hnotin : arcDst g i ∉ (k :: ks).map (arcDst g) :=
            (List.nodup_cons.mp hnd).1
          intro hcontra
          rw [hcontra] at hnotin
          exact hnotin hw
        exact chainOk_src_ne_end hc (List.nodup_cons.mp hnd).2 hdnew j hj2

theorem walkBack_spec {g : Graph} {pred : List (Option Nat)} {s : Nat}
    (hP : PredOk g pred) :
    ∀ (fuel cur : Nat) (visited : List Nat) (l : List Nat),
      walkBack g pred s fuel cur visited = some l →
      chainOk g s l cur ∧
      (∀ i ∈ l, 0 < residAt g i) ∧
      (l.map (arcDst g)).Nodup ∧
      (∀ i ∈ l, arcDst g i ∉ visited ∧ arcDst g i ≠ s)
  | 0, cur, visited, l, h => by cases h
  | fuel + 1, cur, visited, l, h => by
    unfold walkBack at h
    by_cases hcs : cur = s
    · rw [if_pos hcs] at h
      cases h
      subst hcs
      refine ⟨rfl, ?_, ?_, ?_⟩ <;> simp
    · rw [if_neg hcs] at h
      by_cases hcv : cur ∈ visited
      · rw [if_pos hcv] at h; cases h
      · rw [if_neg hcv] at h
        cases hpred : pred.getD cur none with
        | none => rw [hpred] at h; cases h
        | some i =>
          rw [hpred] at h
          dsimp only at h
          cases hgi : g.arcs.get? i with
          | none => rw [hgi] at h; cases h
          | some a =>
            rw [hgi] at h
            dsimp only at h
            cases hrec : walkBack g pred s fuel a.src (cur :: visited) with
            | none => rw [hrec] at h; cases h
            | some l' =>
              rw [hrec] at h
              simp only [Option.map_some'] at h
              cases h
              obtain ⟨hch, hres, hnd, hvis⟩ :=
                walkBack_spec hP fuel a.src (cur :: visited) l' hrec
              obtain ⟨hilt, hidst, hires⟩ := hP cur i hpred
              have hisrc : arcSrc g i = a.src := by
                unfold arcSrc; rw [hgi]
              refine ⟨?_, ?_, ?_, ?_⟩
              · apply chainOk_append hch
                exact ⟨hilt, hisrc, hidst⟩
              · intro j hj
                rcases List.mem_append.mp hj with hj1 | hj2
                · exact hres j hj1
                · rw [List.mem_singleton.mp hj2]
                  exact hires
              · rw [List.map_append]
                rw [List.nodup_append]
                refine ⟨hnd, by simp, ?_⟩
                intro x hx hxy
                obtain ⟨j, hj, hjx⟩ := List.mem_map.mp hx
                simp only [List.map_cons, List.map_nil,
                  List.mem_singleton] at hxy
                have hxcur : x = cur := by rw [hxy, hidst]
                have hnotin := (hvis j hj).1
                rw [hjx, hxcur] at hnotin
                exact hnotin (List.mem_cons_self cur visited)
              · intro j hj
                rcases List.mem_append.mp hj with hj1 | hj2
                · obtain ⟨h1, h2⟩ := hvis j hj1
                  exact ⟨fun hc => h1 (List.mem_cons_of_mem cur hc), h2⟩
                · rw [List.mem_singleton.mp hj2, hidst]
                  exact ⟨hcv, hcs⟩

theorem lookupLabel_lt : ∀ (ls : List String) (l : String) (i : Nat),
    lookupLabel ls l = some i → i < ls.length
  | [], l, i, h => by cases h
  | x :: xs, l, i, h => by
    unfold lookupLabel at h
    by_cases hx : x = l
    · rw [if_pos hx] at h
      cases h
      simp
    · rw [if_neg hx] at h
      cases hrec : lookupLabel xs l with
      | none => rw [hrec] at h; cases h
      | some j =>
        rw [hrec] at h
        simp only [Option.map_some'] at h
        cases h
        have := lookupLabel_lt xs l j hrec
        simp
        omega

theorem arcs_intern (g : Graph) (l : String) : (intern g l).1.arcs = g.arcs := by
  unfold intern
  cases lookupLabel g.labels l <;> rfl

theorem intern_idx_lt (g : Graph) (l : String) :
    (intern g l).2 < numNodes (intern g l).1 := by
  unfold intern
  cases h : lookupLabel g.labels l with
  | some i =>
    exact lookupLabel_lt g.labels l i h
  | none =>
    unfold numNodes
    simp

theorem numNodes_le_intern (g : Graph) (l : String) :
    numNodes g ≤ numNodes (intern g l).1 := by
  unfold intern
  cases lookupLabel g.labels l with
  | some i => exact le_refl _
  | none => unfold numNodes; simp

theorem length_add_edge (g : Graph) (fr tl : String) (cap cost : Int) :
    (add_edge g fr tl cap cost).arcs.length = g.arcs.length + 2 := by
  unfold add_edge
  rw [List.length_append, arcs_intern, arcs_intern]
  rfl

theorem get?_add_edge_lt (g : Graph) (fr tl : String) (cap cost : Int)
    {i : Nat} (hi : i < g.arcs.length) :
    (add_edge g fr tl cap cost).arcs.get? i = g.arcs.get? i := by
  unfold add_edge
  rw [List.get?_append]
  · rw [arcs_intern, arcs_intern]
  · rw [arcs_intern, arcs_intern]; exact hi

theorem get?_add_edge_fst (g : Graph) (fr tl : String) (cap cost : Int) :
    (add_edge g fr tl cap cost).arcs.get? g.arcs.length =
      some ⟨(intern g fr).2, (intern (intern g fr).1 tl).2, cap, cost, 0⟩ := by
  unfold add_edge
  dsimp only
  have harcs : (intern (intern g fr).1 tl).1.arcs = g.arcs := by
    rw [arcs_intern, arcs_intern]
  rw [harcs]
  rw [List.get?_append_right (le_refl _)]
  simp

theorem get?_add_edge_snd (g : Graph) (fr tl : String) (cap cost : Int) :
    (add_edge g fr tl cap cost).arcs.get? (g.arcs.length + 1) =
      some ⟨(intern (intern g fr).1 tl).2, (intern g fr).2, 0, -cost, 0⟩ := by
  unfold add_edge
  dsimp only
  have harcs : (intern (intern g fr).1 tl).1.arcs = g.arcs := by
    rw [arcs_intern, arcs_intern]
  rw [harcs]
  rw [List.get?_append_right (by omega)]
  have : g.arcs.length + 1 - g.arcs.length = 1 := by omega
  rw [this]
  simp

theorem numNodes_add_edge_ge (g : Graph) (fr tl : String) (cap cost : Int) :
    numNodes g ≤ numNodes (add_edge g fr tl cap cost) := by
  unfold add_edge
  calc numNodes g ≤ numNodes (intern g fr).1 := numNodes_le_intern g fr
    _ ≤ numNodes (intern (intern g fr).1 tl).1 := numNodes_le_intern _ tl
    _ = numNodes
        { (intern (intern g fr).1 tl).1 with
          arcs := (intern (intern g fr).1 tl).1.arcs ++
            [⟨(intern g fr).2, (intern (intern g fr).1 tl).2, cap, cost, 0⟩,
             ⟨(intern (intern g fr).1 tl).2, (intern g fr).2, 0, -cost, 0⟩] } :=
      rfl

theorem Wf_add_edge (g : Graph) (fr tl : String) {cap : Int} (cost : Int)
    (hcap : 0 ≤ cap) (hW : Wf g) : Wf (add_edge g fr tl cap cost) := by
  obtain ⟨h1, h2, h3, h4⟩ := hW
  set G := add_edge g fr tl cap cost with hG
  have hlen : G.arcs.length = g.arcs.length + 2 :=
    length_add_edge g fr tl cap cost
  have hu := intern_idx_lt g fr
  have hv := intern_idx_lt (intern g fr).1 tl
  have huv : (intern g fr).2 < numNodes G := by
    calc (intern g fr).2 < numNodes (intern g fr).1 := hu
      _ ≤ numNodes (intern (intern g fr).1 tl).1 := numNodes_le_intern _ tl
      _ = numNodes G := rfl
  have hvv : (intern (intern g fr).1 tl).2 < numNodes G := by
    calc (intern (intern g fr).1 tl).2
        < numNodes (intern (intern g fr).1 tl).1 := hv
      _ = numNodes G := rfl
  have hnum : numNodes g ≤ numNodes G := numNodes_add_edge_ge g fr tl cap cost
  have hsrc_lt : ∀ i, i < g.arcs.length → arcSrc G i = arcSrc g i := by
    intro i hi
    unfold arcSrc
    rw [get?_add_edge_lt g fr tl cap cost hi]
  have hdst_lt : ∀ i, i < g.arcs.length → arcDst G i = arcDst g i := by
    intro i hi
    unfold arcDst
    rw [get?_add_edge_lt g fr tl cap cost hi]
  have hcap_lt : ∀ i, i < g.arcs.length → arcCap G i = arcCap g i := by
    intro i hi
    unfold arcCap
    rw [get?_add_edge_lt g fr tl cap cost hi]
  have hcost_lt : ∀ i, i < g.arcs.length → arcCost G i = arcCost g i := by
    intro i hi
    unfold arcCost
    rw [get?_add_edge_lt g fr tl cap cost hi]
  have hsrcA : arcSrc G g.arcs.length = (intern g fr).2 := by
    unfold arcSrc
    rw [get?_add_edge_fst]
  have hdstA : arcDst G g.arcs.length = (intern (intern g fr).1 tl).2 := by
    unfold arcDst
    rw [get?_add_edge_fst]
  have hcapA : arcCap G g.arcs.length = cap := by
    unfold arcCap
    rw [get?_add_edge_fst]
  have hcostA : arcCost G g.arcs.length = cost := by
    unfold arcCost
    rw [get?_add_edge_fst]
  have hsrcB : arcSrc G (g.arcs.length + 1) = (intern (intern g fr).1 tl).2 := by
    unfold arcSrc
    rw [get?_add_edge_snd]
  have hdstB : arcDst G (g.arcs.length + 1) = (intern g fr).2 := by
    unfold arcDst
    rw [get?_add_edge_snd]
  have hcapB : arcCap G (g.arcs.length + 1) = 0 := by
    unfold arcCap
    rw [get?_add_edge_snd]
  have hcostB : arcCost G (g.arcs.length + 1) = -cost := by
    unfold arcCost
    rw [get?_add_edge_snd]
  refine ⟨by omega, ?_, ?_, ?_⟩
  · intro i hi
    rw [hlen] at hi
    by_cases hio : i < g.arcs.length
    · have hp : pairIdx i < g.arcs.length := pairIdx_lt h1 hio
      rw [hsrc_lt _ hp, hdst_lt _ hio, hcost_lt _ hp, hcost_lt _ hio]
      exact h2 i hio
    · by_cases hieq : i = g.arcs.length
      · subst hieq
        have hpe : pairIdx g.arcs.length = g.arcs.length + 1 :=
          pairIdx_even h1
        rw [hpe, hsrcB, hdstA, hcostB, hcostA]
        exact ⟨rfl, rfl⟩
      · have hieq2 : i = g.arcs.length + 1 := by omega
        subst hieq2
        have hpo : pairIdx (g.arcs.length + 1) = g.arcs.length := by
          rw [pairIdx_odd (by omega)]
          omega
        rw [hpo, hsrcA, hdstB, hcostA, hcostB]
        exact ⟨rfl, by ring⟩
  · intro i hi hev
    rw [hlen] at hi
    by_cases hio : i < g.arcs.length
    · have hp : pairIdx i < g.arcs.length := pairIdx_lt h1 hio
      rw [hcap_lt _ hio, hcap_lt _ hp]
      exact h3 i hio hev
    · have hieq : i = g.arcs.length := by omega
      subst hieq
      have hpe : pairIdx g.arcs.length = g.arcs.length + 1 :=
        pairIdx_even h1
      rw [hpe, hcapA, hcapB]
      exact ⟨hcap, rfl⟩
  · intro i hi
    rw [hlen] at hi
    by_cases hio : i < g.arcs.length
    · rw [hsrc_lt _ hio, hdst_lt _ hio]
      have := h4 i hio
      omega
    · by_cases hieq : i = g.arcs.length
      · subst hieq
        rw [hsrcA, hdstA]
        exact ⟨huv, hvv⟩
      · have hieq2 : i = g.arcs.length + 1 := by omega
        subst hieq2
        rw [hsrcB, hdstB]
        exact ⟨hvv, huv⟩

theorem arcFlow_add_edge_zero (g : Graph) (fr tl : String) (cap cost : Int)
    (hZ : ∀ i, arcFlow g i = 0) :
    ∀ i, arcFlow (add_edge g fr tl cap cost) i = 0 := by
  intro i
  by_cases hio : i < g.arcs.length
  · unfold arcFlow
    rw [get?_add_edge_lt g fr tl cap cost hio]
    have := hZ i
    unfold arcFlow at this
    exact this
  · by_cases hieq : i = g.arcs.length
    · subst hieq
      unfold arcFlow
      rw [get?_add_edge_fst]
    · by_cases hieq2 : i = g.arcs.length + 1
      · subst hieq2
        unfold arcFlow
        rw [get?_add_edge_snd]
      · unfold arcFlow
        rw [List.get?_eq_none.mpr (by rw [length_add_edge]; omega)]

theorem Wf_newBuilder : Wf newBuilder := by
  refine ⟨rfl, ?_, ?_, ?_⟩ <;> intro i hi <;> cases hi

theorem buildGraph_foldl (edges : List (String × String × Int × Int)) :
    ∀ (g : Graph), Wf g → (∀ i, arcFlow g i = 0) →
      (∀ e ∈ edges, 0 ≤ e.2.2.1) →
      Wf (edges.foldl (fun h e => add_edge h e.1 e.2.1 e.2.2.1 e.2.2.2) g) ∧
      (∀ i, arcFlow
        (edges.foldl (fun h e => add_edge h e.1 e.2.1 e.2.2.1 e.2.2.2) g) i = 0) := by
  induction edges with
  | nil => intro g hW hZ _; exact ⟨hW, hZ⟩
  | cons e es ih =>
    intro g hW hZ hE
    apply ih
    · exact Wf_add_edge g e.1 e.2.1 e.2.2.2 (hE e (List.mem_cons_self e es)) hW
    · exact arcFlow_add_edge_zero g e.1 e.2.1 e.2.2.1 e.2.2.2 hZ
    · intro e2 he2
      exact hE e2 (List.mem_cons_of_mem e he2)

theorem Wf_buildGraph {edges : List (String × String × Int × Int)}
    (hE : EdgesOk edges) : Wf (buildGraph edges) :=
  (buildGraph_foldl edges newBuilder Wf_newBuilder (fun i => rfl) hE).1

theorem ZeroFlow_buildGraph {edges : List (String × String × Int × Int)}
    (hE : EdgesOk edges) : ∀ i, arcFlow (buildGraph edges) i = 0 :=
  (buildGraph_foldl edges newBuilder Wf_newBuilder (fun i => rfl) hE).2

theorem Wf_pushPath (b : Int) :
    ∀ (l : List Nat) (g : Graph), Wf g → Wf (pushPath g b l)
  | [], _, hW => hW
  | i :: is, g, hW => by
    rw [pushPath_cons]
    exact Wf_pushPath b is (pushArc g b i) (Wf_pushArc g b i hW)

theorem chainOk_mem_lt {g : Graph} :
    ∀ {l : List Nat} {u w : Nat}, chainOk g u l w →
      ∀ i ∈ l, i < g.arcs.length
  | [], _, _, _ => by intro i hi; cases hi
  | j :: js, u, w, h => by
    obtain ⟨hj, _, hc⟩ := h
    intro i hi
    rcases List.mem_cons.mp hi with rfl | hi2
    · exact hj
    · exact chainOk_mem_lt hc i hi2

theorem walkBack_self {g : Graph} {pred : List (Option Nat)} {s : Nat}
    {fuel : Nat} {visited : List Nat} {l : List Nat}
    (h : walkBack g pred s fuel s visited = some l) : l = [] := by
  cases fuel with
  | zero => cases h
  | succ n =>
    unfold walkBack at h
    rw [if_pos rfl] at h
    cases h
    rfl

theorem engInv_engInit {g : Graph} (s t : Nat) (hW : Wf g)
    (hZ : ∀ i, arcFlow g i = 0) : EngInv s t (engInit g) := by
  have hnet : ∀ v, netOut g v = 0 := by
    intro v
    unfold netOut
    apply Finset.sum_eq_zero
    intro i _
    rw [hZ i]
    split <;> rfl
  have hfin : ∀ v, fwdIn g v = 0 := by
    intro v
    unfold fwdIn
    apply Finset.sum_eq_zero
    intro i _
    rw [hZ i]
    split <;> rfl
  have hfout : ∀ v, fwdOut g v = 0 := by
    intro v
    unfold fwdOut
    apply Finset.sum_eq_zero
    intro i _
    rw [hZ i]
    split <;> rfl
  have hfsum : fwdSum g = 0 := by
    unfold fwdSum
    apply Finset.sum_eq_zero
    intro i _
    rw [hZ i]
    split <;> ring
  unfold engInit EngInv
  dsimp only
  refine ⟨hW, ⟨?_, ?_⟩, ?_, ?_, ?_, ?_⟩
  · intro i hi
    rw [hZ i, hZ (pairIdx i)]
    rfl
  · intro i hi hev
    rw [hZ i]
    exact ⟨le_refl _, (hW.2.2.1 i hi hev).1⟩
  · intro v
    rw [hnet v]
    split_ifs <;> simp
  · exact hfsum.symm
  · exact hfin s
  · exact hfout t

theorem engInv_mcmfStep {s t : Nat} {st st' : EngState} (hI : EngInv s t st)
    (hstep : mcmfStep s t st = some st') : EngInv s t st' := by
  obtain ⟨hW, hF, hNet, hCost, hInS, hOutT⟩ := hI
  unfold mcmfStep at hstep
  dsimp only at hstep
  cases hdt : (bellmanFord st.g st.pot s).dist.getD t none with
  | none => rw [hdt] at hstep; cases hstep
  | some d =>
    rw [hdt] at hstep
    dsimp only at hstep
    cases hwb : walkBack st.g (bellmanFord st.g st.pot s).pred s
        (numNodes st.g) t [] with
    | none => rw [hwb] at hstep; cases hstep
    | some l =>
      rw [hwb] at hstep
      dsimp only at hstep
      cases hstep
      obtain ⟨hch, hres, hndmap, hvis⟩ :=
        walkBack_spec (predOk_bellmanFord st.g st.pot s) _ t [] l hwb
      by_cases hlne : l = []
      · subst hlne
        obtain rfl : s = t := hch
        have hb0 : bottleneck st.g ([] : List Nat) = 0 := rfl
        unfold EngInv
        dsimp only
        rw [hb0, pushPath_nil]
        refine ⟨hW, hF, ?_, ?_, hInS, hOutT⟩
        · intro v
          rw [hNet v]
          split_ifs <;> omega
        · rw [hCost]
          ring
      · have hts : t ≠ s := by
          have hmem := chainOk_last_mem hch hlne
          obtain ⟨k, hk, hkd⟩ := List.mem_map.mp hmem
          rw [← hkd]
          exact (hvis k hk).2
        set b := bottleneck st.g l with hbdef
        have hmapne : l.map (residAt st.g) ≠ [] := by
          intro hcontra
          exact hlne (List.map_eq_nil.mp hcontra)
        have hb1 : 1 ≤ b := by
          apply le_listMin _ hmapne
          intro x hx
          obtain ⟨k, hk, hkx⟩ := List.mem_map.mp hx
          have := hres k hk
          omega
        have hble : ∀ k ∈ l, b ≤ residAt st.g k := by
          intro k hk
          exact listMin_le _ (List.mem_map_of_mem _ hk)
        have hlt : ∀ k ∈ l, k < st.g.arcs.length := chainOk_mem_lt hch
        have hnodup : l.Nodup := List.Nodup.of_map _ hndmap
        have hb0 : 0 < b := by omega
        have hWf2 : Wf (pushPath st.g b l) := Wf_pushPath b l st.g hW
        have hFl2 : FlowInv (pushPath st.g b l) :=
          FlowInv_pushPath b l st.g hW hF hb0 hnodup
            (fun k hk => ⟨hlt k hk, hble k hk⟩)
        unfold EngInv
        dsimp only
        refine ⟨hWf2, hFl2, ?_, ?_, ?_, ?_⟩
        · intro v
          rw [netOut_pushPath b l st.g s hW hch]
          rw [hNet v]
          split_ifs <;> omega
        · rw [fwdSum_pushPath b l st.g hW hlt]
          rw [hCost]
        · have hle : fwdIn (pushPath st.g b l) s ≤ fwdIn st.g s :=
            fwdIn_pushPath_le b (by omega) l st.g hW
              (fun k hk => ⟨hlt k hk, (hvis k hk).2⟩)
          have hge : 0 ≤ fwdIn (pushPath st.g b l) s :=
            fwdIn_nonneg hFl2.2 s
          omega
        · have hsrc_ne : ∀ k ∈ l, arcSrc st.g k ≠ t :=
            chainOk_src_ne_end hch hndmap (fun h => hts h.symm)
          have hle : fwdOut (pushPath st.g b l) t ≤ fwdOut st.g t :=
            fwdOut_pushPath_le b (by omega) l st.g hW
              (fun k hk => ⟨hlt k hk, hsrc_ne k hk⟩)
          have hge : 0 ≤ fwdOut (pushPath st.g b l) t :=
            fwdOut_nonneg hFl2.2 t
          omega
theorem engInv_mcmfLoop {s t : Nat} :
    ∀ (fuel : Nat) (st : EngState), EngInv s t st →
      EngInv s t (mcmfLoop s t fuel st).1
  | 0, st, h => h
  | fuel + 1, st, h => by
    unfold mcmfLoop
    cases hstep : mcmfStep s t st with
    | none => exact h
    | some st' => exact engInv_mcmfLoop fuel st' (engInv_mcmfStep h hstep)

theorem engInv_solveFinal {g : Graph} (s t : Nat) (hW : Wf g)
    (hZ : ∀ i, arcFlow g i = 0) : EngInv s t (solveFinal g s t) := by
  unfold solveFinal
  exact engInv_mcmfLoop (capFuel g) (engInit g) (engInv_engInit s t hW hZ)

theorem sum_range_two_mul (f : Nat → Int) :
    ∀ (n : Nat), ∑ i in Finset.range (2 * n), f i =
      ∑ j in Finset.range n, (f (2 * j) + f (2 * j + 1))
  | 0 => rfl
  | n + 1 => by
    have h2 : 2 * (n + 1) = (2 * n) + 1 + 1 := by omega
    rw [h2, Finset.sum_range_succ, Finset.sum_range_succ,
      sum_range_two_mul f n, Finset.sum_range_succ]
    ring

theorem netOut_eq_fwdDiff {g : Graph} (hW : Wf g) (hA : PairAntisym g)
    (v : Nat) : netOut g v = fwdOut g v - fwdIn g v := by
  obtain ⟨h1, h2, h3, h4⟩ := hW
  have hn : g.arcs.length = 2 * (g.arcs.length / 2) := by omega
  unfold netOut fwdOut fwdIn
  rw [hn, ← Finset.sum_sub_distrib, sum_range_two_mul, sum_range_two_mul]
  apply Finset.sum_congr rfl
  intro j hj
  rw [Finset.mem_range] at hj
  have hjl : 2 * j < g.arcs.length := by omega
  have hjl2 : 2 * j + 1 < g.arcs.length := by omega
  have hev : (2 * j) % 2 = 0 := by omega
  have hodd : ¬ ((2 * j + 1) % 2 = 0) := by omega
  have hpj : pairIdx (2 * j) = 2 * j + 1 := pairIdx_even hev
  have hsrc : arcSrc g (2 * j + 1) = arcDst g (2 * j) := by
    have := (h2 (2 * j) hjl).1
    rwa [hpj] at this
  have hflow : arcFlow g (2 * j + 1) = -(arcFlow g (2 * j)) := by
    have := hA (2 * j) hjl
    rwa [hpj] at this
  rw [hsrc, hflow]
  by_cases hs : arcSrc g (2 * j) = v <;>
    by_cases hd : arcDst g (2 * j) = v <;>
      simp [hs, hd, hev, hodd] <;> ring

theorem decInv_of_engInv {s t : Nat} {st : EngState} (hI : EngInv s t st) :
    DecInv st.g s t := by
  obtain ⟨hW, ⟨hA, hB⟩, hNet, _, hInS, hOutT⟩ := hI
  refine ⟨hW, hB, ?_, hInS, hOutT⟩
  intro v hvs hvt
  have h1 := netOut_eq_fwdDiff hW hA v
  have h2 := hNet v
  rw [if_neg hvs, if_neg hvt] at h2
  omega

theorem outFlowArc_some {g : Graph} {v i : Nat} (h : outFlowArc g v = some i) :
    i < g.arcs.length ∧ i % 2 = 0 ∧ arcSrc g i = v ∧ 0 < arcFlow g i := by
  unfold outFlowArc at h
  have hp := List.find?_some h
  have hm := List.mem_of_find?_eq_some h
  rw [List.mem_range] at hm
  refine ⟨hm, ?_⟩
  cases hgi : g.arcs.get? i with
  | none => rw [hgi] at hp; simp [isFwd] at hp
  | some a =>
    rw [hgi] at hp
    simp only [isFwd, Bool.and_eq_true, decide_eq_true_eq, beq_iff_eq] at hp
    obtain ⟨hev, hsrc, hflow⟩ := hp
    refine ⟨hev, ?_, ?_⟩
    · unfold arcSrc; rw [hgi]; exact hsrc
    · unfold arcFlow; rw [hgi]; exact hflow

theorem outFlowArc_none {g : Graph} {v : Nat}
    (h : ∀ i, i < g.arcs.length → i % 2 = 0 → arcSrc g i = v →
      arcFlow g i ≤ 0) : outFlowArc g v = none := by
  unfold outFlowArc
  rw [List.find?_eq_none]
  intro i hi
  rw [List.mem_range] at hi
  cases hgi : g.arcs.get? i with
  | none => simp [isFwd, hgi]
  | some a =>
    intro hp
    simp only [isFwd, hgi, Bool.and_eq_true, decide_eq_true_eq,
      beq_iff_eq] at hp
    obtain ⟨hev, hsrc, hflow⟩ := hp
    have := h i hi hev (by unfold arcSrc; rw [hgi]; exact hsrc)
    unfold arcFlow at this
    rw [hgi] at this
    dsimp only at this
    omega

theorem walkFwd_spec {g : Graph} {t : Nat} :
    ∀ (fuel v : Nat) (visited : List Nat) (l : List Nat),
      walkFwd g t fuel v visited = some l →
      chainOk g v l t ∧
      (∀ i ∈ l, i % 2 = 0 ∧ 0 < arcFlow g i) ∧
      (l.map (arcSrc g)).Nodup ∧
      (∀ i ∈ l, arcSrc g i ∉ visited ∧ arcSrc g i ≠ t)
  | 0, v, visited, l, h => by cases h
  | fuel + 1, v, visited, l, h => by
    unfold walkFwd at h
    by_cases hvt : v = t
    · rw [if_pos hvt] at h
      cases h
      subst hvt
      refine ⟨rfl, ?_, ?_, ?_⟩ <;> simp
    · rw [if_neg hvt] at h
      by_cases hvv : v ∈ visited
      · rw [if_pos hvv] at h; cases h
      · rw [if_neg hvv] at h
        cases hofa : outFlowArc g v with
        | none => rw [hofa] at h; cases h
        | some i =>
          rw [hofa] at h
          dsimp only at h
          obtain ⟨hilt, hiev, hisrc, hiflow⟩ := outFlowArc_some hofa
          cases hgi : g.arcs.get? i with
          | none =>
            rw [hgi] at h
            cases h
          | some a =>
            rw [hgi] at h
            dsimp only at h
            cases hrec : walkFwd g t fuel a.dst (v :: visited) with
            | none => rw [hrec] at h; cases h
            | some l' =>
              rw [hrec] at h
              simp only [Option.map_some'] at h
              cases h
              obtain ⟨hch, hprops, hnd, hvis⟩ :=
                walkFwd_spec fuel a.dst (v :: visited) l' hrec
              have hdst : arcDst g i = a.dst := by
                unfold arcDst; rw [hgi]
              refine ⟨?_, ?_, ?_, ?_⟩
              · exact ⟨hilt, hisrc, by rw [hdst]; exact hch⟩
              · intro j hj
                rcases List.mem_cons.mp hj with rfl | hj2
                · exact ⟨hiev, hiflow⟩
                · exact hprops j hj2
              · rw [List.map_cons, List.nodup_cons]
                constructor
                · rw [hisrc]
                  intro hcontra
                  obtain ⟨k, hk, hks⟩ := List.mem_map.mp hcontra
                  have := (hvis k hk).1
                  rw [hks] at this
                  exact this (List.mem_cons_self v visited)
                · exact hnd
              · intro j hj
                rcases List.mem_cons.mp hj with rfl | hj2
                · rw [hisrc]
                  exact ⟨hvv, hvt⟩
                · obtain ⟨ha, hb⟩ := hvis j hj2
                  exact ⟨fun hc => ha (List.mem_cons_of_mem v hc), hb⟩

theorem chainOk_dst_ne {g : Graph} {z : Nat} :
    ∀ {l : List Nat} {u w : Nat}, chainOk g u l w →
      (∀ i ∈ l, arcSrc g i ≠ z) → w ≠ z → ∀ i ∈ l, arcDst g i ≠ z
  | [], _, _, _, _, _ => by intro i hi; cases hi
  | i :: is, u, w, hch, hsrc, hwz => by
    obtain ⟨hi, hs, hc⟩ := hch
    intro j hj
    rcases List.mem_cons.mp hj with rfl | hj2
    · cases his : is with
      | nil =>
        subst his
        obtain rfl : arcDst g j = w := hc
        exact hwz
      | cons k ks =>
        subst his
        obtain ⟨_, hk, _⟩ := hc
        rw [← hk]
        exact hsrc k (List.mem_cons_of_mem _ (List.mem_cons_self k ks))
    · exact chainOk_dst_ne hc
        (fun m hm => hsrc m (List.mem_cons_of_mem i hm)) hwz j hj2

theorem Wf_decPath (b : Int) :
    ∀ (l : List Nat) (g : Graph), Wf g → Wf (decPath g b l)
  | [], _, hW => hW
  | i :: is, g, hW => by
    rw [decPath_cons]
    exact Wf_decPath b is (decFlow g b i) (Wf_decFlow g b i hW)

theorem arcFlow_decPath_le {b : Int} (hb : 0 ≤ b) :
    ∀ (l : List Nat) (g : Graph) (j : Nat),
      arcFlow (decPath g b l) j ≤ arcFlow g j
  | [], _, _ => le_refl _
  | i :: is, g, j => by
    rw [decPath_cons]
    calc arcFlow (decPath (decFlow g b i) b is) j
        ≤ arcFlow (decFlow g b i) j := arcFlow_decPath_le hb is _ j
      _ ≤ arcFlow g j := by
          unfold decFlow
          by_cases hji : j = i
          · subst hji
            by_cases hj : j < g.arcs.length
            · rw [arcFlow_setFlowAt_self g _ hj]; omega
            · unfold setFlowAt
              cases hgi : g.arcs.get? j with
              | none => exact le_refl _
              | some a =>
                have := (List.get?_eq_some.mp hgi).1
                omega
          · rw [arcFlow_setFlowAt_ne g _ hji]

theorem RankOk_decPath {b : Int} (hb : 0 ≤ b) {g : Graph} {rank : Nat → Nat}
    (hr : RankOk g rank) (l : List Nat) : RankOk (decPath g b l) rank := by
  intro i hi hev hpos
  rw [length_decPath] at hi
  rw [arcSrc_decPath, arcDst_decPath]
  apply hr i hi hev
  have := arcFlow_decPath_le hb l g i
  omega

theorem nodup_lt_length_le {L : List Nat} {n : Nat} (hnd : L.Nodup)
    (hlt : ∀ x ∈ L, x < n) : L.length ≤ n := by
  have h1 : L.toFinset.card = L.length := List.toFinset_card_of_nodup hnd
  have h2 : L.toFinset ⊆ Finset.range n := by
    intro x hx
    rw [List.mem_toFinset] at hx
    rw [Finset.mem_range]
    exact hlt x hx
  have := Finset.card_le_card h2
  rw [h1, Finset.card_range] at this
  exact this

theorem walkFwd_success {g : Graph} {s t : Nat} (hW : Wf g)
    (hB : FwdBounds g)
    (hcons : ∀ v, v ≠ s → v ≠ t → fwdOut g v = fwdIn g v)
    (hInS : fwdIn g s = 0) {rank : Nat → Nat} (hr : RankOk g rank) :
    ∀ (fuel : Nat) (v : Nat) (visited : List Nat),
      v < numNodes g → visited.Nodup →
      (∀ w ∈ visited, w < numNodes g ∧ rank w < rank v) →
      (v = t ∨ 0 < fwdOut g v) → numNodes g ≤ fuel + visited.length →
      ∃ l, walkFwd g t fuel v visited = some l
  | 0, v, visited, hv, hnd, hvis, hout, hfuel => by
    exfalso
    have hnd2 : (v :: visited).Nodup := by
      rw [List.nodup_cons]
      exact ⟨fun hc => absurd rfl (Nat.ne_of_lt (hvis v hc).2), hnd⟩
    have hlt2 : ∀ x ∈ v :: visited, x < numNodes g := by
      intro x hx
      rcases List.mem_cons.mp hx with rfl | hx2
      · exact hv
      · exact (hvis x hx2).1
    have := nodup_lt_length_le hnd2 hlt2
    simp at this
    omega
  | fuel + 1, v, visited, hv, hnd, hvis, hout, hfuel => by
    unfold walkFwd
    by_cases hvt : v = t
    · rw [if_pos hvt]
      exact ⟨[], rfl⟩
    · rw [if_neg hvt]
      have hvnotin : v ∉ visited := fun hc =>
        absurd rfl (Nat.ne_of_lt (hvis v hc).2)
      rw [if_neg hvnotin]
      have hfo : 0 < fwdOut g v := by
        rcases hout with rfl | h2
        · exact absurd rfl hvt
        · exact h2
      obtain ⟨i, hilt, hiev, hisrc, hiflow⟩ := exists_arc_of_fwdOut_pos hB hfo
      have hsome : ∃ i0, outFlowArc g v = some i0 := by
        cases hofa : outFlowArc g v with
        | some i0 => exact ⟨i0, rfl⟩
        | none =>
          exfalso
          unfold outFlowArc at hofa
          rw [List.find?_eq_none] at hofa
          have := hofa i (List.mem_range.mpr hilt)
          cases hgi : g.arcs.get? i with
          | none =>
            unfold arcSrc at hisrc
            unfold arcFlow at hiflow
            rw [hgi] at hisrc hiflow
            dsimp only at hiflow
            omega
          | some a =>
            apply this
            simp only [isFwd, hgi, Bool.and_eq_true, decide_eq_true_eq,
              beq_iff_eq]
            unfold arcSrc at hisrc
            unfold arcFlow at hiflow
            rw [hgi] at hisrc hiflow
            dsimp only at hisrc hiflow
            exact ⟨hiev, hisrc, hiflow⟩
      obtain ⟨i0, hofa⟩ := hsome
      rw [hofa]
      dsimp only
      obtain ⟨h0lt, h0ev, h0src, h0flow⟩ := outFlowArc_some hofa
      cases hgi : g.arcs.get? i0 with
      | none =>
        exfalso
        have := List.get?_eq_none.mp hgi
        omega
      | some a =>
        have hdst : arcDst g i0 = a.dst := by unfold arcDst; rw [hgi]
        have hdlt : a.dst < numNodes g := by
          have := (hW.2.2.2 i0 h0lt).2
          rwa [hdst] at this
        have hrank : rank v < rank a.dst := by
          have := hr i0 h0lt h0ev h0flow
          rwa [h0src, hdst] at this
        have hrec : ∃ l', walkFwd g t fuel a.dst (v :: visited) = some l' := by
          apply walkFwd_success hW hB hcons hInS hr fuel a.dst (v :: visited)
            hdlt
          · rw [List.nodup_cons]; exact ⟨hvnotin, hnd⟩
          · intro w hw
            rcases List.mem_cons.mp hw with rfl | hw2
            · exact ⟨hv, hrank⟩
            · obtain ⟨h1, h2⟩ := hvis w hw2
              exact ⟨h1, lt_trans h2 hrank⟩
          · by_cases hdt : a.dst = t
            · exact Or.inl hdt
            · right
              have hds : a.dst ≠ s := by
                intro hcontra
                have hle : arcFlow g i0 ≤ fwdIn g s := by
                  apply le_fwdIn_of_arc hB h0lt h0ev
                  rw [hdst, hcontra]
                omega
              rw [hcons a.dst hds hdt]
              have hle : arcFlow g i0 ≤ fwdIn g a.dst :=
                le_fwdIn_of_arc hB h0lt h0ev hdst
              omega
          · simp at hfuel ⊢
            omega
        obtain ⟨l', hl'⟩ := hrec
        refine ⟨i0 :: l', ?_⟩
        dsimp only
        rw [hl']
        rfl

theorem sumFwdFlow_nonneg {g : Graph} (hB : FwdBounds g) :
    0 ≤ sumFwdFlow g := by
  unfold sumFwdFlow
  apply Finset.sum_nonneg
  intro i hi
  by_cases hP : i % 2 = 0
  · simp only [hP, if_true]
    exact (hB i (Finset.mem_range.mp hi) hP).1
  · simp [hP]

theorem flows_zero_of_drained {g : Graph} {s t : Nat} (hd : DecInv g s t)
    {rank : Nat → Nat} (hr : RankOk g rank) (hzero : fwdOut g s = 0) :
    ∀ i, i < g.arcs.length → i % 2 = 0 → arcFlow g i = 0 := by
  obtain ⟨hW, hB, hcons, hInS, hOutT⟩ := hd
  by_contra hcontra
  push_neg at hcontra
  obtain ⟨i, hilt, hiev, hine⟩ := hcontra
  have hipos : 0 < arcFlow g i := by
    have := (hB i hilt hiev).1
    omega
  have hTne : ((Finset.range g.arcs.length).filter
      (fun j => j % 2 = 0 ∧ 0 < arcFlow g j)).Nonempty := by
    refine ⟨i, ?_⟩
    rw [Finset.mem_filter, Finset.mem_range]
    exact ⟨hilt, hiev, hipos⟩
  obtain ⟨m, hmT, hmin⟩ := Finset.exists_min_image _
    (fun j => rank (arcSrc g j)) hTne
  rw [Finset.mem_filter, Finset.mem_range] at hmT
  obtain ⟨hmlt, hmev, hmpos⟩ := hmT
  have hvout : 0 < fwdOut g (arcSrc g m) := by
    have := le_fwdOut_of_arc hB hmlt hmev rfl
    omega
  by_cases hvs : arcSrc g m = s
  · rw [hvs] at hvout; omega
  · by_cases hvt : arcSrc g m = t
    · rw [hvt] at hvout; omega
    · have hvin : 0 < fwdIn g (arcSrc g m) := by
        rw [← hcons (arcSrc g m) hvs hvt]; exact hvout
      obtain ⟨j, hjlt, hjev, hjdst, hjpos⟩ := exists_arc_of_fwdIn_pos hB hvin
      have hjT : j ∈ (Finset.range g.arcs.length).filter
          (fun k => k % 2 = 0 ∧ 0 < arcFlow g k) := by
        rw [Finset.mem_filter, Finset.mem_range]
        exact ⟨hjlt, hjev, hjpos⟩
      have h1 := hmin j hjT
      have h2 := hr j hjlt hjev hjpos
      rw [hjdst] at h2
      omega

theorem fwdSum_zero_of_flows_zero {g : Graph}
    (hz : ∀ i, i < g.arcs.length → i % 2 = 0 → arcFlow g i = 0) :
    fwdSum g = 0 := by
  unfold fwdSum
  apply Finset.sum_eq_zero
  intro i hi
  by_cases hP : i % 2 = 0
  · simp only [hP, if_true]
    rw [hz i (Finset.mem_range.mp hi) hP]
    ring
  · simp [hP]

theorem walkFwd_nil {g : Graph} {t : Nat} :
    ∀ {fuel v : Nat} {visited : List Nat},
      walkFwd g t fuel v visited = some [] → v = t := by
  intro fuel v visited h
  cases fuel with
  | zero => cases h
  | succ n =>
    unfold walkFwd at h
    by_cases hvt : v = t
    · exact hvt
    · rw [if_neg hvt] at h
      by_cases hvv : v ∈ visited
      · rw [if_pos hvv] at h; cases h
      · rw [if_neg hvv] at h
        cases hofa : outFlowArc g v with
        | none => rw [hofa] at h; cases h
        | some i =>
          rw [hofa] at h
          dsimp only at h
          cases hgi : g.arcs.get? i with
          | none => rw [hgi] at h; cases h
          | some a =>
            rw [hgi] at h
            dsimp only at h
            cases hrec : walkFwd g t n a.dst (v :: visited) with
            | none => rw [hrec] at h; cases h
            | some l' =>
              rw [hrec] at h
              simp at h

theorem decomposeAux_spec {s t : Nat} {rank : Nat → Nat} :
    ∀ (fuel : Nat) (g : Graph), DecInv g s t → RankOk g rank →
      sumFwdFlow g < (fuel : Int) →
      ((decomposeAux s t fuel g).map RawPath.flow).sum = fwdOut g s ∧
      ((decomposeAux s t fuel g).map
        (fun p => p.flow * pathCost g p.arcIdxs)).sum = fwdSum g
  | 0, g, hd, hr, hm => by
    exfalso
    have := sumFwdFlow_nonneg hd.2.1
    omega
  | fuel + 1, g, hd, hr, hm => by
    obtain ⟨hW, hB, hcons, hInS, hOutT⟩ := hd
    cases hw : walkFwd g t (numNodes g) s [] with
    | none =>
      have hred : decomposeAux s t (fuel + 1) g = [] := by
        unfold decomposeAux
        rw [hw]
      rw [hred]
      by_cases hfo : 0 < fwdOut g s
      · exfalso
        obtain ⟨i, hilt, hiev, hisrc, hiflow⟩ := exists_arc_of_fwdOut_pos hB hfo
        have hslt : s < numNodes g := by
          have := (hW.2.2.2 i hilt).1
          rwa [hisrc] at this
        obtain ⟨l, hl⟩ := walkFwd_success hW hB hcons hInS hr (numNodes g) s []
          hslt (by simp) (by simp) (Or.inr hfo) (by simp)
        rw [hw] at hl
        cases hl
      · have hfz : fwdOut g s = 0 := by
          have := fwdOut_nonneg hB s
          omega
        have hflows := flows_zero_of_drained ⟨hW, hB, hcons, hInS, hOutT⟩ hr hfz
        have hfs := fwdSum_zero_of_flows_zero hflows
        simp [hfz, hfs]
    | some l =>
      cases hl : l with
      | nil =>
        have hred : decomposeAux s t (fuel + 1) g = [] := by
          unfold decomposeAux
          rw [hw, hl]
        rw [hred]
        have hst : s = t := walkFwd_nil (by rw [hw, hl])
        have hfz : fwdOut g s = 0 := by rw [hst]; exact hOutT
        have hflows := flows_zero_of_drained ⟨hW, hB, hcons, hInS, hOutT⟩ hr hfz
        have hfs := fwdSum_zero_of_flows_zero hflows
        simp [hfz, hfs]
      | cons j js =>
        have hlne : l ≠ [] := by rw [hl]; simp
        have hred : decomposeAux s t (fuel + 1) g =
            ⟨listMin (l.map (arcFlow g)), l⟩ ::
              decomposeAux s t fuel (decPath g (listMin (l.map (arcFlow g))) l) := by
          conv_lhs => rw [decomposeAux.eq_def]
          dsimp only
          rw [hw, hl]
        rw [hred]
        obtain ⟨hch, hprops, hndmap, hvis⟩ := walkFwd_spec _ s [] l hw
        have hb1 : (1:Int) ≤ listMin (l.map (arcFlow g)) := by
          apply le_listMin
          · intro hcontra
            exact hlne (List.map_eq_nil.mp hcontra)
          · intro x hx
            obtain ⟨k, hk, hkx⟩ := List.mem_map.mp hx
            have := (hprops k hk).2
            omega
        set b := listMin (l.map (arcFlow g)) with hbdef
        have hble : ∀ k ∈ l, b ≤ arcFlow g k := by
          intro k hk
          exact listMin_le _ (List.mem_map_of_mem _ hk)
        have hlt : ∀ k ∈ l, k < g.arcs.length := chainOk_mem_lt hch
        have hnodup : l.Nodup := List.Nodup.of_map _ hndmap
        have hev : ∀ k ∈ l, k % 2 = 0 := fun k hk => (hprops k hk).1
        have hsrc_ne_t : ∀ k ∈ l, arcSrc g k ≠ t := fun k hk => (hvis k hk).2
        have hjmem : j ∈ l := by rw [hl]; exact List.mem_cons_self j js
        have hhead_src : arcSrc g j = s := by
          rw [hl] at hch
          exact hch.2.1
        have hst : s ≠ t := by
          rw [← hhead_src]
          exact hsrc_ne_t j hjmem
        have htail_src_ne_s : ∀ k ∈ js, arcSrc g k ≠ s := by
          intro k hk
          rw [hl] at hndmap
          rw [List.map_cons, List.nodup_cons] at hndmap
          intro hcontra
          apply hndmap.1
          rw [hhead_src, ← hcontra]
          exact List.mem_map_of_mem _ hk
        have hdst_ne_s : ∀ k ∈ l, arcDst g k ≠ s := by
          rw [hl] at hch ⊢
          obtain ⟨hjlt, hjsrc, hjch⟩ := hch
          intro k hk
          rcases List.mem_cons.mp hk with rfl | hk2
          · cases hjs : js with
            | nil =>
              rw [hjs] at hjch
              obtain rfl : arcDst g k = t := hjch
              exact fun hc => hst hc.symm
            | cons m ms =>
              rw [hjs] at hjch
              obtain ⟨_, hmsrc, _⟩ := hjch
              rw [← hmsrc]
              apply htail_src_ne_s
              rw [hjs]
              exact List.mem_cons_self m ms
          · exact chainOk_dst_ne hjch htail_src_ne_s
              (fun hc => hst hc.symm) k hk2
        have hd2 : DecInv (decPath g b l) s t := by
          refine ⟨Wf_decPath b l g hW, ?_, ?_, ?_, ?_⟩
          · exact FwdBounds_decPath b l g (by omega) hnodup
              (fun k hk => ⟨hlt k hk, hble k hk⟩) hB
          · intro v hvs hvt
            have hdiff := fwdDiff_decPath b l g s hch hev (v := v)
            rw [hcons v hvs hvt] at hdiff
            rw [if_neg (fun hc : s = v => hvs hc.symm),
              if_neg (fun hc : t = v => hvt hc.symm)] at hdiff
            omega
          · rw [fwdIn_decPath_of_no_dst b l g
              (fun k hk => ⟨hlt k hk, hdst_ne_s k hk⟩)]
            exact hInS
          · rw [fwdOut_decPath_of_no_src b l g
              (fun k hk => ⟨hlt k hk, hsrc_ne_t k hk⟩)]
            exact hOutT
        have hr2 : RankOk (decPath g b l) rank := RankOk_decPath (by omega) hr l
        have hm2 : sumFwdFlow (decPath g b l) < (fuel : Int) := by
          rw [sumFwdFlow_decPath b l g (fun k hk => ⟨hlt k hk, hev k hk⟩)]
          have hlen1' : 1 ≤ l.length := by rw [hl]; simp
          have hlen1 : (1:Int) ≤ (l.length : Int) := by exact_mod_cast hlen1'
          have hge1 : (1:Int) ≤ b * (l.length : Int) := by
            calc (1:Int) = 1 * 1 := by ring
              _ ≤ b * (l.length : Int) :=
                mul_le_mul hb1 hlen1 (by norm_num) (by omega)
          push_cast at hm
          omega
        obtain ⟨ih1, ih2⟩ := decomposeAux_spec fuel (decPath g b l) hd2 hr2 hm2
        constructor
        · rw [List.map_cons, List.sum_cons, ih1]
          have hstep : fwdOut (decPath g b l) s = fwdOut g s - b := by
            rw [hl]
            rw [decPath_cons]
            rw [fwdOut_decPath_of_no_src b js (decFlow g b j) (fun k hk => by
              refine ⟨?_, ?_⟩
              · rw [length_decFlow]
                exact hlt k (by rw [hl]; exact List.mem_cons_of_mem j hk)
              · rw [arcSrc_decFlow]
                exact htail_src_ne_s k hk)]
            rw [fwdOut_decFlow g b (hlt j hjmem) s]
            have hjev : j % 2 = 0 := hev j hjmem
            simp [hjev, hhead_src]
          rw [hstep]
          ring
        · rw [List.map_cons, List.sum_cons]
          have hpc : ∀ m : List Nat, pathCost (decPath g b l) m = pathCost g m :=
            fun m => pathCost_congr (fun j2 => arcCost_decPath b l g j2) m
          have hmapc :
              (decomposeAux s t fuel (decPath g b l)).map
                (fun p => p.flow * pathCost g p.arcIdxs) =
              (decomposeAux s t fuel (decPath g b l)).map
                (fun p => p.flow * pathCost (decPath g b l) p.arcIdxs) := by
            apply List.map_congr_left
            intro p _
            rw [hpc]
          rw [hmapc, ih2]
          rw [fwdSum_decPath b l g (fun k hk => ⟨hlt k hk, hev k hk⟩)]
          ring

theorem mcmfStep_struct {s t : Nat} {st st' : EngState}
    (h : mcmfStep s t st = some st') :
    ∃ l, walkBack st.g (bellmanFord st.g st.pot s).pred s (numNodes st.g) t []
        = some l ∧
      st'.g = pushPath st.g (bottleneck st.g l) l ∧
      st'.flow = st.flow + bottleneck st.g l ∧
      st'.cost = st.cost + bottleneck st.g l * pathCost st.g l := by
  unfold mcmfStep at h
  dsimp only at h
  cases hdt : (bellmanFord st.g st.pot s).dist.getD t none with
  | none => rw [hdt] at h; cases h
  | some d =>
    rw [hdt] at h
    dsimp only at h
    cases hwb : walkBack st.g (bellmanFord st.g st.pot s).pred s
        (numNodes st.g) t [] with
    | none => rw [hwb] at h; cases h
    | some l =>
      rw [hwb] at h
      dsimp only at h
      cases h
      exact ⟨l, rfl, rfl, rfl, rfl⟩

theorem arcCost_mcmfStep {s t : Nat} {st st' : EngState}
    (h : mcmfStep s t st = some st') (j : Nat) :
    arcCost st'.g j = arcCost st.g j := by
  obtain ⟨l, _, hg, _, _⟩ := mcmfStep_struct h
  rw [hg, arcCost_pushPath]

theorem arcCap_mcmfStep {s t : Nat} {st st' : EngState}
    (h : mcmfStep s t st = some st') (j : Nat) :
    arcCap st'.g j = arcCap st.g j := by
  obtain ⟨l, _, hg, _, _⟩ := mcmfStep_struct h
  rw [hg, arcCap_pushPath]

theorem length_mcmfStep {s t : Nat} {st st' : EngState}
    (h : mcmfStep s t st = some st') :
    st'.g.arcs.length = st.g.arcs.length := by
  obtain ⟨l, _, hg, _, _⟩ := mcmfStep_struct h
  rw [hg, length_pushPath]

theorem capInt_mcmfStep {s t : Nat} {st st' : EngState}
    (h : mcmfStep s t st = some st') : capInt st'.g = capInt st.g := by
  unfold capInt
  rw [length_mcmfStep h]
  exact Finset.sum_congr rfl (fun j _ => arcCap_mcmfStep h j)

theorem arcCost_mcmfLoop {s t : Nat} :
    ∀ (fuel : Nat) (st : EngState) (j : Nat),
      arcCost (mcmfLoop s t fuel st).1.g j = arcCost st.g j
  | 0, st, j => rfl
  | fuel + 1, st, j => by
    unfold mcmfLoop
    cases hstep : mcmfStep s t st with
    | none => rfl
    | some st' =>
      rw [arcCost_mcmfLoop fuel st' j, arcCost_mcmfStep hstep j]

theorem flow_eq_fwdOut {s t : Nat} {st : EngState} (hI : EngInv s t st) :
    st.flow = fwdOut st.g s := by
  obtain ⟨hW, ⟨hA, hB⟩, hNet, _, hInS, _⟩ := hI
  have h1 := hNet s
  rw [if_pos rfl] at h1
  have h2 := netOut_eq_fwdDiff hW hA s
  omega

theorem sumFwdFlow_lt_flowFuel {g : Graph} (hB : FwdBounds g) :
    sumFwdFlow g < (flowFuel g : Int) := by
  unfold sumFwdFlow flowFuel
  have hle : ∑ i in Finset.range g.arcs.length,
      (if i % 2 = 0 then arcFlow g i else 0) ≤
      ∑ i in Finset.range g.arcs.length, ((arcFlow g i).toNat : Int) := by
    apply Finset.sum_le_sum
    intro i hi
    by_cases hP : i % 2 = 0
    · simp only [hP, if_true]
      exact Int.self_le_toNat _
    · simp only [hP, if_false]
      positivity
  push_cast
  push_cast at hle
  omega

theorem flow_le_capInt {s t : Nat} {st : EngState} (hI : EngInv s t st) :
    st.flow ≤ capInt st.g := by
  rw [flow_eq_fwdOut hI]
  obtain ⟨hW, ⟨hA, hB⟩, _, _, _, _⟩ := hI
  unfold fwdOut capInt
  apply Finset.sum_le_sum
  intro i hi
  rw [Finset.mem_range] at hi
  by_cases hP : i % 2 = 0 ∧ arcSrc st.g i = s
  · simp only [hP, if_true]
    exact (hB i hi hP.1).2
  · simp only [hP, if_false]
    rcases Nat.even_or_odd i with he | ho
    · exact (hW.2.2.1 i hi (Nat.even_iff.mp he)).1
    · have hio : i % 2 = 1 := Nat.odd_iff.mp ho
      have hpe : pairIdx i % 2 = 0 := by rw [pairIdx_odd hio]; omega
      have hplt : pairIdx i < st.g.arcs.length := pairIdx_lt hW.1 hi
      have := (hW.2.2.1 (pairIdx i) hplt hpe).2
      rw [pairIdx_invol] at this
      rw [this]

theorem capInt_lt_capFuel (g : Graph) : capInt g < (capFuel g : Int) := by
  unfold capInt capFuel
  have hle : ∑ i in Finset.range g.arcs.length, arcCap g i ≤
      ∑ i in Finset.range g.arcs.length, ((arcCap g i).toNat : Int) := by
    apply Finset.sum_le_sum
    intro i hi
    exact Int.self_le_toNat _
  push_cast
  push_cast at hle
  omega

theorem mcmfStep_flow_increase {s t : Nat} {st st' : EngState} (hst : s ≠ t)
    (hI : EngInv s t st) (h : mcmfStep s t st = some st') :
    st.flow + 1 ≤ st'.flow := by
  obtain ⟨l, hwb, hg, hflow, hcost⟩ := mcmfStep_struct h
  obtain ⟨hch, hres, hndmap, hvis⟩ :=
    walkBack_spec (predOk_bellmanFord st.g st.pot s) _ t [] l hwb
  cases hl : l with
  | nil =>
    exfalso
    rw [hl] at hch
    exact hst hch
  | cons j js =>
    have hlne : l ≠ [] := by rw [hl]; simp
    have hb1 : (1:Int) ≤ bottleneck st.g l := by
      unfold bottleneck
      apply le_listMin
      · intro hcontra
        exact hlne (List.map_eq_nil.mp hcontra)
      · intro x hx
        obtain ⟨k, hk, hkx⟩ := List.mem_map.mp hx
        have := hres k hk
        omega
    rw [hflow]
    omega

theorem mcmfLoop_terminates {s t : Nat} (hst : s ≠ t) :
    ∀ (fuel : Nat) (st : EngState), EngInv s t st →
      capInt st.g < st.flow + (fuel : Int) →
      (mcmfLoop s t fuel st).2 = true
  | 0, st, hI, hbound => by
    exfalso
    have := flow_le_capInt hI
    push_cast at hbound
    omega
  | fuel + 1, st, hI, hbound => by
    unfold mcmfLoop
    cases hstep : mcmfStep s t st with
    | none => rfl
    | some st' =>
      apply mcmfLoop_terminates hst fuel st' (engInv_mcmfStep hI hstep)
      have h1 := mcmfStep_flow_increase hst hI hstep
      have h2 := capInt_mcmfStep hstep
      push_cast at hbound ⊢
      omega

theorem solve_mcmf_ok {g : Graph} {source sink : String} {s t : Nat}
    (hs : lookupLabel g.labels source = some s)
    (ht : lookupLabel g.labels sink = some t) :
    solve_mcmf g source sink = Except.ok
      { max_flow := (solveFinal g s t).flow,
        total_cost := (solveFinal g s t).cost,
        paths := (decompose (solveFinal g s t).g s t).map
          (fun p => ⟨p.flow, pathNodes (solveFinal g s t).g s p.arcIdxs,
            p.arcIdxs⟩) } := by
  unfold solve_mcmf solveFinal
  rw [hs, ht]

theorem decompose_spec {s t : Nat} {st : EngState} (hI : EngInv s t st)
    {rank : Nat → Nat} (hrank : RankOk st.g rank) :
    ((decompose st.g s t).map RawPath.flow).sum = st.flow ∧
    ((decompose st.g s t).map
      (fun p => p.flow * pathCost st.g p.arcIdxs)).sum = st.cost := by
  have hd := decInv_of_engInv hI
  have hm := sumFwdFlow_lt_flowFuel hd.2.1
  obtain ⟨h1, h2⟩ := decomposeAux_spec (flowFuel st.g) st.g hd hrank hm
  constructor
  · unfold decompose
    rw [h1]
    exact (flow_eq_fwdOut hI).symm
  · unfold decompose
    rw [h2]
    exact hI.2.2.2.1.symm

end Mcmf

namespace Mcmf

/-- C1: for every wellformed edge list solved via `solve_mcmf`, provided
the final flow's forward support is acyclic (witnessed by a topological
rank — the spec's §9 precondition on the decomposition), the sum of
`flow()` over the returned paths equals the solution's `max_flow()`. -/
theorem C1_sum_path_flows_eq_max_flow
    (edges : List (String × String × Int × Int)) (source sink : String)
    (s t : Nat) (sol : Solution) (rank : Nat → Nat)
    (hE : EdgesOk edges)
    (hs : lookupLabel (buildGraph edges).labels source = some s)
    (ht : lookupLabel (buildGraph edges).labels sink = some t)
    (hrank : RankOk (solveFinal (buildGraph edges) s t).g rank)
    (hsol : solve_mcmf (buildGraph edges) source sink = Except.ok sol) :
    (sol.paths.map SolutionPath.flow).sum = sol.max_flow := by
  have hok := solve_mcmf_ok (g := buildGraph edges) hs ht
  rw [hsol] at hok
  have hsol2 := Except.ok.inj hok
  subst hsol2
  have hI := engInv_solveFinal (g := buildGraph edges) s t
    (Wf_buildGraph hE) (ZeroFlow_buildGraph hE)
  have hflows := (decompose_spec hI hrank).1
  dsimp only
  rw [List.map_map]
  exact hflows

/-- C1 witness: Scenario 1 (single edge a→b, capacity 5, cost 2)
instantiates the theorem; the final flow support is ranked by the node
index itself. -/
theorem C1_witness :
    (((⟨5, 10, [⟨5, ["a", "b"], [0]⟩]⟩ : Solution).paths.map
      SolutionPath.flow).sum =
      (⟨5, 10, [⟨5, ["a", "b"], [0]⟩]⟩ : Solution).max_flow) :=
  C1_sum_path_flows_eq_max_flow [("a", "b", 5, 2)] "a" "b" 0 1
    ⟨5, 10, [⟨5, ["a", "b"], [0]⟩]⟩ (fun v => v)
    (by unfold EdgesOk; decide) (by decide) (by decide)
    (by unfold RankOk; decide) (by decide)

end Mcmf

namespace Mcmf

/-- C2: under the same acyclic-support precondition as C1, the sum over
decomposed paths of `flow × (sum of original per-arc costs along the
path)` equals the solution's `total_cost()`, which in turn equals the sum
over the user-added (forward) arcs of `flow × cost` in the final residual
state. -/
theorem C2_sum_path_costs_eq_total_cost
    (edges : List (String × String × Int × Int)) (source sink : String)
    (s t : Nat) (sol : Solution) (rank : Nat → Nat)
    (hE : EdgesOk edges)
    (hs : lookupLabel (buildGraph edges).labels source = some s)
    (ht : lookupLabel (buildGraph edges).labels sink = some t)
    (hrank : RankOk (solveFinal (buildGraph edges) s t).g rank)
    (hsol : solve_mcmf (buildGraph edges) source sink = Except.ok sol) :
    (sol.paths.map
      (fun p => p.flow * pathCost (buildGraph edges) p.arcIdxs)).sum
      = sol.total_cost ∧
    sol.total_cost = fwdSum (solveFinal (buildGraph edges) s t).g := by
  have hok := solve_mcmf_ok (g := buildGraph edges) hs ht
  rw [hsol] at hok
  have hsol2 := Except.ok.inj hok
  subst hsol2
  have hI := engInv_solveFinal (g := buildGraph edges) s t
    (Wf_buildGraph hE) (ZeroFlow_buildGraph hE)
  have hcosts := (decompose_spec hI hrank).2
  have hstable : ∀ j, arcCost (solveFinal (buildGraph edges) s t).g j
      = arcCost (buildGraph edges) j := by
    intro j
    unfold solveFinal
    exact arcCost_mcmfLoop (capFuel (buildGraph edges)) _ j
  constructor
  · dsimp only
    rw [List.map_map]
    have hcong : ((decompose (solveFinal (buildGraph edges) s t).g s t).map
        ((fun p => p.flow * pathCost (buildGraph edges) p.arcIdxs) ∘
          (fun p : RawPath => (⟨p.flow,
            pathNodes (solveFinal (buildGraph edges) s t).g s p.arcIdxs,
            p.arcIdxs⟩ : SolutionPath))))
        = ((decompose (solveFinal (buildGraph edges) s t).g s t).map
          (fun p => p.flow *
            pathCost (solveFinal (buildGraph edges) s t).g p.arcIdxs)) := by
      apply List.map_congr_left
      intro p _
      dsimp only [Function.comp]
      rw [pathCost_congr hstable]
    rw [hcong, hcosts]
  · dsimp only
    exact hI.2.2.2.1

/-- C2 witness: Scenario 1 instantiates the theorem. -/
theorem C2_witness :
    ((((⟨5, 10, [⟨5, ["a", "b"], [0]⟩]⟩ : Solution).paths.map
      (fun p => p.flow * pathCost (buildGraph [("a", "b", 5, 2)]) p.arcIdxs)).sum
      = (⟨5, 10, [⟨5, ["a", "b"], [0]⟩]⟩ : Solution).total_cost) ∧
      (⟨5, 10, [⟨5, ["a", "b"], [0]⟩]⟩ : Solution).total_cost
        = fwdSum (solveFinal (buildGraph [("a", "b", 5, 2)]) 0 1).g) :=
  C2_sum_path_costs_eq_total_cost [("a", "b", 5, 2)] "a" "b" 0 1
    ⟨5, 10, [⟨5, ["a", "b"], [0]⟩]⟩ (fun v => v)
    (by unfold EdgesOk; decide) (by decide) (by decide)
    (by unfold RankOk; decide) (by decide)

/-- C6: after `solve_mcmf` finishes, every node other than the source and
the sink has equal total incoming and outgoing forward flow in the final
residual assignment. -/
theorem C6_flow_conservation
    (edges : List (String × String × Int × Int)) (source sink : String)
    (s t v : Nat)
    (hE : EdgesOk edges)
    (hs : lookupLabel (buildGraph edges).labels source = some s)
    (ht : lookupLabel (buildGraph edges).labels sink = some t)
    (hvs : v ≠ s) (hvt : v ≠ t) :
    fwdIn (solveFinal (buildGraph edges) s t).g v
      = fwdOut (solveFinal (buildGraph edges) s t).g v := by
  have hI := engInv_solveFinal (g := buildGraph edges) s t
    (Wf_buildGraph hE) (ZeroFlow_buildGraph hE)
  exact ((decInv_of_engInv hI).2.2.1 v hvs hvt).symm

/-- C6 witness: node b of the example graph conserves flow. -/
theorem C6_witness :
    fwdIn (solveFinal exampleGraph 0 3).g 1
      = fwdOut (solveFinal exampleGraph 0 3).g 1 :=
  C6_flow_conservation
    [("a", "b", 10, 200), ("b", "c", 20, 0), ("c", "e", 15, 0),
     ("a", "d", 2, 100), ("d", "e", 3, 0)] "a" "e" 0 3 1
    (by unfold EdgesOk; decide) (by decide) (by decide)
    (by decide) (by decide)

/-- C9: for every wellformed edge list and distinct source/sink, the
successive-shortest-augmenting-path loop terminates normally within
`capFuel` iterations (the flag is `true`: the loop stopped because the
sink became unreachable, not because fuel ran out), and every successful
iteration strictly increases the accumulated flow by at least one unit. -/
theorem C9_loop_terminates
    (edges : List (String × String × Int × Int)) (source sink : String)
    (s t : Nat)
    (hE : EdgesOk edges)
    (hs : lookupLabel (buildGraph edges).labels source = some s)
    (ht : lookupLabel (buildGraph edges).labels sink = some t)
    (hst : s ≠ t) :
    (mcmfLoop s t (capFuel (buildGraph edges))
      (engInit (buildGraph edges))).2 = true ∧
    (∀ st st', EngInv s t st → mcmfStep s t st = some st' →
      st.flow + 1 ≤ st'.flow) := by
  constructor
  · apply mcmfLoop_terminates hst
    · exact engInv_engInit s t (Wf_buildGraph hE) (ZeroFlow_buildGraph hE)
    · have h1 := capInt_lt_capFuel (buildGraph edges)
      unfold engInit
      dsimp only
      push_cast
      omega
  · intro st st' hI h
    exact mcmfStep_flow_increase hst hI h

/-- C9 witness: the example graph instantiates the theorem. -/
theorem C9_witness :
    (mcmfLoop 0 3 (capFuel (buildGraph
      [("a", "b", 10, 200), ("b", "c", 20, 0), ("c", "e", 15, 0),
       ("a", "d", 2, 100), ("d", "e", 3, 0)]))
      (engInit (buildGraph
        [("a", "b", 10, 200), ("b", "c", 20, 0), ("c", "e", 15, 0),
         ("a", "d", 2, 100), ("d", "e", 3, 0)]))).2 = true ∧
    (∀ st st', EngInv 0 3 st → mcmfStep 0 3 st = some st' →
      st.flow + 1 ≤ st'.flow) :=
  C9_loop_terminates
    [("a", "b", 10, 200), ("b", "c", 20, 0), ("c", "e", 15, 0),
     ("a", "d", 2, 100), ("d", "e", 3, 0)] "a" "e" 0 3
    (by unfold EdgesOk; decide) (by decide) (by decide) (by decide)

end Mcmf

namespace Mcmf

theorem arcFlow_buildGraph_zero (edges : List (String × String × Int × Int)) :
    ∀ i, arcFlow (buildGraph edges) i = 0 := by
  unfold buildGraph
  generalize hg : newBuilder = g0
  have hz0 : ∀ i, arcFlow g0 i = 0 := by
    intro i
    rw [← hg]
    rfl
  clear hg
  induction edges generalizing g0 with
  | nil => exact hz0
  | cons e es ih =>
    exact ih _ (arcFlow_add_edge_zero g0 e.1 e.2.1 e.2.2.1 e.2.2.2 hz0)

theorem lookupLabel_none_iff : ∀ (ls : List String) (x : String),
    lookupLabel ls x = none ↔ x ∉ ls
  | [], x => by simp [lookupLabel]
  | y :: ys, x => by
    unfold lookupLabel
    by_cases hy : y = x
    · subst hy
      simp
    · rw [if_neg hy]
      rw [Option.map_eq_none', lookupLabel_none_iff ys x, List.mem_cons]
      constructor
      · intro h hc
        rcases hc with rfl | hc2
        · exact hy rfl
        · exact h hc2
      · intro h hc
        exact h (Or.inr hc)

theorem lookupLabel_some_mem {ls : List String} {x : String} {i : Nat}
    (h : lookupLabel ls x = some i) : x ∈ ls := by
  by_contra hc
  rw [← lookupLabel_none_iff] at hc
  rw [h] at hc
  cases hc

theorem mem_intern (g : Graph) (l x : String) :
    x ∈ (intern g l).1.labels ↔ (x ∈ g.labels ∨ x = l) := by
  unfold intern
  cases h : lookupLabel g.labels l with
  | some i =>
    dsimp only
    constructor
    · exact Or.inl
    · intro hc
      rcases hc with hc | rfl
      · exact hc
      · exact lookupLabel_some_mem h
  | none =>
    dsimp only
    rw [List.mem_append, List.mem_singleton]

theorem mem_labels_add_edge (g : Graph) (fr tl : String) (cap cost : Int)
    (x : String) :
    x ∈ (add_edge g fr tl cap cost).labels ↔
      (x ∈ g.labels ∨ x = fr ∨ x = tl) := by
  unfold add_edge
  dsimp only
  rw [mem_intern, mem_intern]
  tauto

theorem mem_labels_buildGraph (edges : List (String × String × Int × Int))
    (x : String) :
    x ∈ (buildGraph edges).labels ↔ ∃ e ∈ edges, e.1 = x ∨ e.2.1 = x := by
  unfold buildGraph
  have key : ∀ (g0 : Graph),
      (x ∈ (edges.foldl
          (fun h e => add_edge h e.1 e.2.1 e.2.2.1 e.2.2.2) g0).labels ↔
        (x ∈ g0.labels ∨ ∃ e ∈ edges, e.1 = x ∨ e.2.1 = x)) := by
    induction edges with
    | nil => intro g0; simp
    | cons e es ih =>
      intro g0
      rw [List.foldl_cons, ih, mem_labels_add_edge]
      constructor
      · intro hc
        rcases hc with (hc | rfl | rfl) | ⟨e2, he2, hx⟩
        · exact Or.inl hc
        · exact Or.inr ⟨e, List.mem_cons_self e es, Or.inl rfl⟩
        · exact Or.inr ⟨e, List.mem_cons_self e es, Or.inr rfl⟩
        · exact Or.inr ⟨e2, List.mem_cons_of_mem e he2, hx⟩
      · intro hc
        rcases hc with hc | ⟨e2, he2, hx⟩
        · exact Or.inl (Or.inl hc)
        · rcases List.mem_cons.mp he2 with rfl | he2m
          · rcases hx with hx | hx
            · exact Or.inl (Or.inr (Or.inl hx.symm))
            · exact Or.inl (Or.inr (Or.inr hx.symm))
          · exact Or.inr ⟨e2, he2m, hx⟩
  rw [key newBuilder]
  simp [newBuilder]

theorem solve_error_iff (g : Graph) (source sink : String) :
    solve_mcmf g source sink = Except.error McmfError.unreachableNode ↔
      (lookupLabel g.labels source = none ∨
        lookupLabel g.labels sink = none) := by
  unfold solve_mcmf
  cases h1 : lookupLabel g.labels source <;>
    cases h2 : lookupLabel g.labels sink <;> simp

theorem reach_closed {g : Graph} {s : Nat} {V : List Nat} (hs : s ∈ V)
    (hcl : ∀ i, i < g.arcs.length → arcSrc g i ∈ V → 0 < residAt g i →
      arcDst g i ∈ V) :
    ∀ x, Reach g s x → x ∈ V := by
  intro x h
  induction h with
  | refl => exact hs
  | @step u i a hr hget hsrc hres ih =>
    have hi : i < g.arcs.length := (List.get?_eq_some.mp hget).1
    have h1 : arcSrc g i = a.src := by unfold arcSrc; rw [hget]
    have h2 : arcDst g i = a.dst := by unfold arcDst; rw [hget]
    have h3 : residAt g i = residual a := by unfold residAt; rw [hget]
    rw [← h2]
    apply hcl i hi
    · rw [h1, hsrc]; exact ih
    · rw [h3]; exact hres

theorem mcmfLoop_step_none {s t : Nat} {st : EngState}
    (h : mcmfStep s t st = none) (fuel : Nat) :
    mcmfLoop s t (fuel + 1) st = (st, true) := by
  unfold mcmfLoop
  rw [h]

end Mcmf

namespace Mcmf

/-- C3: `solve_mcmf(source, sink)` fails with `UnreachableNodeError` if
and only if the source or sink label was never added via any edge; and
when both labels exist but no positive-residual-capacity path connects
them, it succeeds with `max_flow 0`, `total_cost 0` and an empty path
list. -/
theorem C3_unreachable_error_iff_and_zero_flow :
    (∀ (edges : List (String × String × Int × Int)) (source sink : String),
      solve_mcmf (buildGraph edges) source sink
          = Except.error McmfError.unreachableNode ↔
        ((¬ ∃ e ∈ edges, e.1 = source ∨ e.2.1 = source) ∨
         (¬ ∃ e ∈ edges, e.1 = sink ∨ e.2.1 = sink))) ∧
    (∀ (edges : List (String × String × Int × Int)) (source sink : String)
        (s t : Nat),
      lookupLabel (buildGraph edges).labels source = some s →
      lookupLabel (buildGraph edges).labels sink = some t →
      ¬ Reach (buildGraph edges) s t →
      solve_mcmf (buildGraph edges) source sink = Except.ok ⟨0, 0, []⟩) := by
  constructor
  · intro edges source sink
    rw [solve_error_iff]
    rw [lookupLabel_none_iff, lookupLabel_none_iff]
    rw [mem_labels_buildGraph, mem_labels_buildGraph]
  · intro edges source sink s t hs ht hnr
    have hst : s ≠ t := fun h => hnr (h ▸ Reach.refl)
    rw [solve_mcmf_ok hs ht]
    have hstep : mcmfStep s t (engInit (buildGraph edges)) = none := by
      unfold mcmfStep
      dsimp only
      cases hdt : (bellmanFord (engInit (buildGraph edges)).g
          (engInit (buildGraph edges)).pot s).dist.getD t none with
      | none => rfl
      | some d =>
        exfalso
        exact hnr (distReach_bellmanFord (engInit (buildGraph edges)).g
          (engInit (buildGraph edges)).pot s t d hdt)
    have hfin : solveFinal (buildGraph edges) s t
        = engInit (buildGraph edges) := by
      unfold solveFinal
      have hcap : capFuel (buildGraph edges) =
          (∑ i in Finset.range (buildGraph edges).arcs.length,
            (arcCap (buildGraph edges) i).toNat) + 1 := rfl
      rw [hcap, mcmfLoop_step_none hstep]
    rw [hfin]
    have hz := arcFlow_buildGraph_zero edges
    have hwf : walkFwd (buildGraph edges) t
        (numNodes (buildGraph edges)) s [] = none := by
      cases hn : numNodes (buildGraph edges) with
      | zero => rfl
      | succ n =>
        unfold walkFwd
        rw [if_neg hst, if_neg (List.not_mem_nil s)]
        rw [outFlowArc_none (fun i _ _ _ => le_of_eq (hz i))]
    have hdec : decompose (engInit (buildGraph edges)).g s t = [] := by
      show decompose (buildGraph edges) s t = []
      unfold decompose
      have hff : flowFuel (buildGraph edges) =
          (∑ i in Finset.range (buildGraph edges).arcs.length,
            (arcFlow (buildGraph edges) i).toNat) + 1 := rfl
      rw [hff]
      conv_lhs => rw [decomposeAux.eq_def]
      dsimp only
      rw [hwf]
    rw [hdec]
    rfl

/-- C3 witness: labels a and b both referenced by edges from c, but no
path from a to b; solving succeeds with the zero solution.  The
no-path hypothesis is discharged by closing the reachable set `{a}`. -/
theorem C3_witness :
    solve_mcmf (buildGraph [("c", "a", 1, 0), ("c", "b", 1, 0)]) "a" "b"
      = Except.ok ⟨0, 0, []⟩ := by
  apply C3_unreachable_error_iff_and_zero_flow.2
    [("c", "a", 1, 0), ("c", "b", 1, 0)] "a" "b" 1 2 (by decide) (by decide)
  intro hR
  have hclosed := reach_closed (g := buildGraph
      [("c", "a", 1, 0), ("c", "b", 1, 0)]) (s := 1) (V := [1])
    (by decide)
    (by decide)
    2 hR
  simp at hclosed

end Mcmf

namespace Mcmf

/-- C5 (amended): at every point during insertion and solving, every
forward (user-added) arc satisfies `0 ≤ flow ≤ capacity` and its paired
reverse arc carries exactly the negated flow; during decomposition the
forward flows remain within `[0, capacity]` (reverse pairs are not
updated by the decomposer).  The amendment restricts the claim's
`0 ≤ flow ≤ capacity` to forward arcs: a reverse pair holds `-flow`,
which is negative whenever the forward arc carries flow. -/
theorem C5_flow_invariants :
    (∀ edges, EdgesOk edges → FlowInv (buildGraph edges)) ∧
    (∀ edges s t fuel, EdgesOk edges →
      FlowInv ((mcmfLoop s t fuel (engInit (buildGraph edges))).1.g)) ∧
    (∀ (g : Graph) (s t : Nat) (l : List Nat), FwdBounds g →
      walkFwd g t (numNodes g) s [] = some l →
      FwdBounds (decPath g (listMin (l.map (arcFlow g))) l)) := by
  refine ⟨?_, ?_, ?_⟩
  · intro edges hE
    exact (engInv_engInit 0 0 (Wf_buildGraph hE)
      (ZeroFlow_buildGraph hE)).2.1
  · intro edges s t fuel hE
    exact (engInv_mcmfLoop fuel _ (engInv_engInit s t (Wf_buildGraph hE)
      (ZeroFlow_buildGraph hE))).2.1
  · intro g s t l hB hw
    cases hl : l with
    | nil =>
      rw [decPath_nil]
      exact hB
    | cons j js =>
      have hlne : l ≠ [] := by rw [hl]; simp
      rw [← hl]
      obtain ⟨hch, hprops, hndmap, _⟩ := walkFwd_spec _ s [] l hw
      have hb1 : (1:Int) ≤ listMin (l.map (arcFlow g)) := by
        apply le_listMin
        · intro hcontra
          exact hlne (List.map_eq_nil.mp hcontra)
        · intro x hx
          obtain ⟨k, hk, hkx⟩ := List.mem_map.mp hx
          have := (hprops k hk).2
          omega
      apply FwdBounds_decPath _ l g (by omega) (List.Nodup.of_map _ hndmap)
        (fun k hk => ⟨chainOk_mem_lt hch k hk,
          listMin_le _ (List.mem_map_of_mem _ hk)⟩) hB

/-- C5 witness: Scenario 1 instantiates all three invariant statements. -/
theorem C5_witness :
    FlowInv (buildGraph [("a", "b", 5, 2)]) ∧
    FlowInv ((mcmfLoop 0 1 3 (engInit (buildGraph [("a", "b", 5, 2)]))).1.g) ∧
    FwdBounds (decPath (solveFinal (buildGraph [("a", "b", 5, 2)]) 0 1).g
      (listMin ([0].map
        (arcFlow (solveFinal (buildGraph [("a", "b", 5, 2)]) 0 1).g))) [0]) :=
  ⟨C5_flow_invariants.1 [("a", "b", 5, 2)] (by unfold EdgesOk; decide),
   C5_flow_invariants.2.1 [("a", "b", 5, 2)] 0 1 3 (by unfold EdgesOk; decide),
   C5_flow_invariants.2.2 (solveFinal (buildGraph [("a", "b", 5, 2)]) 0 1).g
     0 1 [0] (by unfold FwdBounds; decide) (by decide)⟩

end Mcmf

namespace Mcmf

theorem arcFlow_congr {g1 g2 : Graph} (h : g1.arcs = g2.arcs) :
    arcFlow g1 = arcFlow g2 := by
  funext i
  unfold arcFlow
  rw [h]

theorem arcCost_congr {g1 g2 : Graph} (h : g1.arcs = g2.arcs) :
    arcCost g1 = arcCost g2 := by
  funext i
  unfold arcCost
  rw [h]

theorem outFlowArc_congr {g1 g2 : Graph} (h : g1.arcs = g2.arcs) (v : Nat) :
    outFlowArc g1 v = outFlowArc g2 v := by
  unfold outFlowArc
  rw [h]

theorem walkFwd_congr {g1 g2 : Graph} (h : g1.arcs = g2.arcs) (t : Nat) :
    ∀ (fuel v : Nat) (visited : List Nat),
      walkFwd g1 t fuel v visited = walkFwd g2 t fuel v visited
  | 0, _, _ => rfl
  | fuel + 1, v, visited => by
    unfold walkFwd
    rw [outFlowArc_congr h, h]
    have hrec : ∀ u vis, walkFwd g1 t fuel u vis = walkFwd g2 t fuel u vis :=
      fun u vis => walkFwd_congr h t fuel u vis
    simp only [hrec]

theorem decFlow_arcs_congr {g1 g2 : Graph} (h : g1.arcs = g2.arcs)
    (b : Int) (i : Nat) : (decFlow g1 b i).arcs = (decFlow g2 b i).arcs := by
  unfold decFlow setFlowAt arcFlow
  rw [h]
  cases g2.arcs.get? i with
  | none => exact h
  | some a => rfl

theorem decPath_arcs_congr (b : Int) :
    ∀ (l : List Nat) (g1 g2 : Graph), g1.arcs = g2.arcs →
      (decPath g1 b l).arcs = (decPath g2 b l).arcs
  | [], _, _, h => h
  | i :: is, g1, g2, h => by
    rw [decPath_cons, decPath_cons]
    exact decPath_arcs_congr b is _ _ (decFlow_arcs_congr h b i)

theorem numNodes_decPath (b : Int) (l : List Nat) (g : Graph) :
    numNodes (decPath g b l) = numNodes g := by
  unfold numNodes
  rw [labels_decPath]

theorem decomposeAux_congr (s t : Nat) :
    ∀ (fuel : Nat) (g1 g2 : Graph), g1.arcs = g2.arcs →
      numNodes g1 = numNodes g2 →
      decomposeAux s t fuel g1 = decomposeAux s t fuel g2
  | 0, _, _, _, _ => rfl
  | fuel + 1, g1, g2, h, hn => by
    conv_lhs => rw [decomposeAux.eq_def]
    conv_rhs => rw [decomposeAux.eq_def]
    dsimp only
    rw [walkFwd_congr h t (numNodes g1) s [], hn, arcFlow_congr h]
    cases hw : walkFwd g2 t (numNodes g2) s [] with
    | none => rfl
    | some l =>
      cases l with
      | nil => rfl
      | cons j js =>
        dsimp only
        congr 1
        apply decomposeAux_congr s t fuel
        · exact decPath_arcs_congr _ _ _ _ h
        · rw [numNodes_decPath, numNodes_decPath, hn]

theorem flowFuel_congr {g1 g2 : Graph} (h : g1.arcs = g2.arcs) :
    flowFuel g1 = flowFuel g2 := by
  unfold flowFuel
  rw [h, arcFlow_congr h]

theorem pathCost_congr2 {g1 g2 : Graph} (h : g1.arcs = g2.arcs)
    (l : List Nat) : pathCost g1 l = pathCost g2 l := by
  unfold pathCost
  rw [arcCost_congr h]

/-- C8: flow decomposition is a deterministic function of the final flow
assignment: two graphs with identical arc stores (and node counts) give
rise to identical decompositions — same path list in the same order,
hence the same aggregate flow and the same aggregate cost.  The
decomposer picks, at each node, the flow-carrying forward arc with lowest
insertion order (`outFlowArc` scans positions in increasing order), so
ties are broken deterministically. -/
theorem C8_decompose_deterministic (g1 g2 : Graph) (s t : Nat)
    (harcs : g1.arcs = g2.arcs) (hnum : numNodes g1 = numNodes g2) :
    decompose g1 s t = decompose g2 s t ∧
    ((decompose g1 s t).map RawPath.flow).sum
      = ((decompose g2 s t).map RawPath.flow).sum ∧
    ((decompose g1 s t).map (fun p => p.flow * pathCost g1 p.arcIdxs)).sum
      = ((decompose g2 s t).map
        (fun p => p.flow * pathCost g2 p.arcIdxs)).sum := by
  have hdec : decompose g1 s t = decompose g2 s t := by
    unfold decompose
    rw [flowFuel_congr harcs]
    exact decomposeAux_congr s t _ g1 g2 harcs hnum
  refine ⟨hdec, by rw [hdec], ?_⟩
  rw [hdec]
  congr 1
  apply List.map_congr_left
  intro p _
  rw [pathCost_congr2 harcs]

/-- C8 witness: decomposing the final flow assignment of Scenario 1
twice gives identical results. -/
theorem C8_witness :
    decompose (solveFinal (buildGraph [("a", "b", 5, 2)]) 0 1).g 0 1
      = decompose (solveFinal (buildGraph [("a", "b", 5, 2)]) 0 1).g 0 1 :=
  (C8_decompose_deterministic
    (solveFinal (buildGraph [("a", "b", 5, 2)]) 0 1).g
    (solveFinal (buildGraph [("a", "b", 5, 2)]) 0 1).g 0 1 rfl rfl).1

end Mcmf

namespace Mcmf

theorem length_dist_relaxArc (g : Graph) (pot : List Int) (st : BFState)
    (i : Nat) : (relaxArc g pot st i).dist.length = st.dist.length := by
  unfold relaxArc
  cases g.arcs.get? i with
  | none => rfl
  | some a =>
    by_cases hres : residual a > 0
    · simp only [hres, if_true]
      cases st.dist.getD a.src none with
      | none => rfl
      | some du =>
        cases st.dist.getD a.dst none with
        | some dv =>
          by_cases hlt : du + rcost pot a < dv
          · simp only [hlt, if_true, List.length_set]
          · simp only [hlt, if_false]
        | none => simp only [List.length_set]
    · simp only [hres, if_false]

theorem distSome_relaxArc {g : Graph} {pot : List Int} {st : BFState}
    {v : Nat} (h : st.dist.getD v none ≠ none) (i : Nat) :
    (relaxArc g pot st i).dist.getD v none ≠ none := by
  unfold relaxArc
  cases hgi : g.arcs.get? i with
  | none => exact h
  | some a =>
    by_cases hres : residual a > 0
    · simp only [hres, if_true]
      cases hds : st.dist.getD a.src none with
      | none => exact h
      | some du =>
        have hset : (st.dist.set a.dst
            (some (du + rcost pot a))).getD v none ≠ none := by
          rw [getD_set_opt]
          by_cases hcase : a.dst = v ∧ a.dst < st.dist.length
          · rw [if_pos hcase]
            simp
          · rw [if_neg hcase]
            exact h
        cases hdd : st.dist.getD a.dst none with
        | some dv =>
          by_cases hlt : du + rcost pot a < dv
          · simp only [hlt, if_true]
            exact hset
          · simp only [hlt, if_false]
            exact h
        | none => exact hset
    · simp only [hres, if_false]
      exact h

theorem distSome_relax_foldl {g : Graph} {pot : List Int} :
    ∀ (l : List Nat) (st : BFState) {v : Nat},
      st.dist.getD v none ≠ none →
      (l.foldl (relaxArc g pot) st).dist.getD v none ≠ none
  | [], st, v, h => h
  | i :: is, st, v, h =>
    distSome_relax_foldl is (relaxArc g pot st i) (distSome_relaxArc h i)

theorem distSome_bfRound {g : Graph} {pot : List Int} {st : BFState}
    {v : Nat} (h : st.dist.getD v none ≠ none) :
    (bfRound g pot st).dist.getD v none ≠ none :=
  distSome_relax_foldl _ st h

theorem distSome_iterate {g : Graph} {pot : List Int} :
    ∀ (n : Nat) (st : BFState) {v : Nat}, st.dist.getD v none ≠ none →
      (iterate (bfRound g pot) n st).dist.getD v none ≠ none
  | 0, _, _, h => h
  | n + 1, st, v, h => distSome_iterate n (bfRound g pot st) (distSome_bfRound h)

theorem relaxArc_sets_dst {g : Graph} {pot : List Int} {st : BFState}
    {i : Nat} {a : Arc} (hgi : g.arcs.get? i = some a)
    (hres : 0 < residual a) (hsrc : st.dist.getD a.src none ≠ none)
    (hdlt : a.dst < st.dist.length) :
    (relaxArc g pot st i).dist.getD a.dst none ≠ none := by
  unfold relaxArc
  rw [hgi]
  simp only [hres, if_true]
  cases hds : st.dist.getD a.src none with
  | none => exact absurd hds hsrc
  | some du =>
    have hset : (st.dist.set a.dst
        (some (du + rcost pot a))).getD a.dst none ≠ none := by
      rw [getD_set_opt]
      rw [if_pos ⟨rfl, hdlt⟩]
      simp
    cases hdd : st.dist.getD a.dst none with
    | some dv =>
      by_cases hlt : du + rcost pot a < dv
      · simp only [hlt, if_true]
        exact hset
      · simp only [hlt, if_false]
        rw [hdd]
        simp
    | none => exact hset

theorem bfRound_closure {g : Graph} {pot : List Int} {st : BFState}
    {i : Nat} {a : Arc} (hgi : g.arcs.get? i = some a)
    (hres : 0 < residual a) (hsrc : st.dist.getD a.src none ≠ none)
    (hdlt : a.dst < st.dist.length) :
    (bfRound g pot st).dist.getD a.dst none ≠ none := by
  unfold bfRound
  have hi : i ∈ List.range g.arcs.length :=
    List.mem_range.mpr (List.get?_eq_some.mp hgi).1
  have key : ∀ (l : List Nat) (st2 : BFState),
      st2.dist.length = st.dist.length →
      ((i ∈ l ∧ st2.dist.getD a.src none ≠ none) ∨
        st2.dist.getD a.dst none ≠ none) →
      (l.foldl (relaxArc g pot) st2).dist.getD a.dst none ≠ none := by
    intro l
    induction l with
    | nil =>
      intro st2 _ hcase
      rcases hcase with ⟨hmem, _⟩ | hdone
      · cases hmem
      · exact hdone
    | cons j js ih =>
      intro st2 hlen hcase
      rw [List.foldl_cons]
      apply ih (relaxArc g pot st2 j)
        (by rw [length_dist_relaxArc]; exact hlen)
      rcases hcase with ⟨hmem, hsrc2⟩ | hdone
      · rcases List.mem_cons.mp hmem with rfl | hmem2
        · right
          exact relaxArc_sets_dst hgi hres hsrc2 (by rw [hlen]; exact hdlt)
        · left
          exact ⟨hmem2, distSome_relaxArc hsrc2 j⟩
      · right
        exact distSome_relaxArc hdone j
  exact key (List.range g.arcs.length) st rfl (Or.inl ⟨hi, hsrc⟩)

theorem length_dist_bfRound (g : Graph) (pot : List Int) (st : BFState) :
    (bfRound g pot st).dist.length = st.dist.length := by
  unfold bfRound
  generalize List.range g.arcs.length = l
  induction l generalizing st with
  | nil => rfl
  | cons i is ih =>
    rw [List.foldl_cons, ih, length_dist_relaxArc]

theorem length_dist_iterate (g : Graph) (pot : List Int) :
    ∀ (n : Nat) (st : BFState),
      (iterate (bfRound g pot) n st).dist.length = st.dist.length
  | 0, _ => rfl
  | n + 1, st => by
    rw [show iterate (bfRound g pot) (n+1) st
      = iterate (bfRound g pot) n (bfRound g pot st) from rfl]
    rw [length_dist_iterate g pot n, length_dist_bfRound]

end Mcmf

namespace Mcmf

theorem iterate_succ_eq (f : α → α) :
    ∀ (n : Nat) (x : α), iterate f (n + 1) x = f (iterate f n x)
  | 0, x => rfl
  | n + 1, x => by
    rw [show iterate f (n + 2) x = iterate f (n + 1) (f x) from rfl]
    rw [iterate_succ_eq f n (f x)]
    rfl

theorem bfInit_dist_length (g : Graph) (s : Nat) :
    (bfInit g s).dist.length = numNodes g := by
  unfold bfInit
  rw [List.length_map, List.length_range]

theorem bfInit_dist_s {g : Graph} {s : Nat} (hs : s < numNodes g) :
    (bfInit g s).dist.getD s none ≠ none := by
  unfold bfInit
  rw [List.getD_eq_getElem?_getD, List.getElem?_map, List.getElem?_range hs]
  simp

theorem bf_complete {g : Graph} (pot : List Int) {s : Nat} (hW : Wf g)
    (hs : s < numNodes g) :
    ∀ v, Reach g s v → (bellmanFord g pot s).dist.getD v none ≠ none := by
  have hDsucc : ∀ k, iterate (bfRound g pot) (k + 1) (bfInit g s)
      = bfRound g pot (iterate (bfRound g pot) k (bfInit g s)) :=
    fun k => iterate_succ_eq (bfRound g pot) k (bfInit g s)
  have hSmono : ∀ k m, k ≤ m → ∀ v,
      (iterate (bfRound g pot) k (bfInit g s)).dist.getD v none ≠ none →
      (iterate (bfRound g pot) m (bfInit g s)).dist.getD v none ≠ none := by
    intro k m hkm
    induction m with
    | zero =>
      intro v h
      have : k = 0 := by omega
      rw [← this]
      exact h
    | succ m ih =>
      intro v h
      by_cases hkm2 : k = m + 1
      · rw [← hkm2]; exact h
      · have : k ≤ m := by omega
        rw [hDsucc]
        exact distSome_bfRound (ih this v h)
  have hlenD : ∀ k,
      (iterate (bfRound g pot) k (bfInit g s)).dist.length = numNodes g := by
    intro k
    rw [length_dist_iterate, bfInit_dist_length]
  have hstable : ∃ k, k < numNodes g ∧
      ((Finset.range (numNodes g)).filter (fun v =>
        (iterate (bfRound g pot) (k + 1) (bfInit g s)).dist.getD v none
          ≠ none))
      = ((Finset.range (numNodes g)).filter (fun v =>
        (iterate (bfRound g pot) k (bfInit g s)).dist.getD v none ≠ none)) := by
    by_contra hno
    push_neg at hno
    have hgrow : ∀ k, k ≤ numNodes g → k + 1 ≤
        ((Finset.range (numNodes g)).filter (fun v =>
          (iterate (bfRound g pot) k (bfInit g s)).dist.getD v none
            ≠ none)).card := by
      intro k
      induction k with
      | zero =>
        intro _
        apply Finset.card_pos.mpr
        refine ⟨s, ?_⟩
        rw [Finset.mem_filter, Finset.mem_range]
        exact ⟨hs, bfInit_dist_s hs⟩
      | succ k ih =>
        intro hk
        have hsub : ((Finset.range (numNodes g)).filter (fun v =>
            (iterate (bfRound g pot) k (bfInit g s)).dist.getD v none
              ≠ none)) ⊆
            ((Finset.range (numNodes g)).filter (fun v =>
              (iterate (bfRound g pot) (k + 1) (bfInit g s)).dist.getD v none
                ≠ none)) := by
          intro v hv
          rw [Finset.mem_filter] at hv ⊢
          exact ⟨hv.1, hSmono k (k + 1) (by omega) v hv.2⟩
        have hne := hno k (by omega)
        have hlt := Finset.card_lt_card
          (Finset.ssubset_iff_subset_ne.mpr ⟨hsub, fun hc => hne hc.symm⟩)
        have := ih (by omega)
        omega
    have h1 := hgrow (numNodes g) (le_refl _)
    have h2 : ((Finset.range (numNodes g)).filter (fun v =>
        (iterate (bfRound g pot) (numNodes g) (bfInit g s)).dist.getD v none
          ≠ none)).card ≤ numNodes g := by
      calc ((Finset.range (numNodes g)).filter _).card
          ≤ (Finset.range (numNodes g)).card :=
            Finset.card_le_card (Finset.filter_subset _ _)
        _ = numNodes g := Finset.card_range _
    omega
  obtain ⟨k0, hk0lt, hk0⟩ := hstable
  have hclosed : ∀ v, Reach g s v →
      (iterate (bfRound g pot) k0 (bfInit g s)).dist.getD v none ≠ none ∧
      v < numNodes g := by
    intro v h
    induction h with
    | refl =>
      exact ⟨hSmono 0 k0 (by omega) s (bfInit_dist_s hs), hs⟩
    | @step u i a hr hget hsrc hres ih =>
      have hi : i < g.arcs.length := (List.get?_eq_some.mp hget).1
      have hdlt : a.dst < numNodes g := by
        have := (hW.2.2.2 i hi).2
        unfold arcDst at this
        rw [hget] at this
        exact this
      have hsrc2 : (iterate (bfRound g pot) k0 (bfInit g s)).dist.getD
          a.src none ≠ none := by
        rw [hsrc]
        exact ih.1
      have hnext : (iterate (bfRound g pot) (k0 + 1)
          (bfInit g s)).dist.getD a.dst none ≠ none := by
        rw [hDsucc]
        exact bfRound_closure hget hres hsrc2 (by rw [hlenD]; exact hdlt)
      have hmem : a.dst ∈ (Finset.range (numNodes g)).filter (fun v =>
          (iterate (bfRound g pot) (k0 + 1) (bfInit g s)).dist.getD v none
            ≠ none) := by
        rw [Finset.mem_filter, Finset.mem_range]
        exact ⟨hdlt, hnext⟩
      rw [hk0] at hmem
      rw [Finset.mem_filter] at hmem
      exact ⟨hmem.2, hdlt⟩
  intro v h
  unfold bellmanFord
  exact hSmono k0 (numNodes g) (by omega) v (hclosed v h).1

end Mcmf

namespace Mcmf

theorem labels_mcmfStep {s t : Nat} {st st' : EngState}
    (h : mcmfStep s t st = some st') : st'.g.labels = st.g.labels := by
  obtain ⟨l, _, hg, _, _⟩ := mcmfStep_struct h
  rw [hg, labels_pushPath]

theorem labels_mcmfLoop {s t : Nat} :
    ∀ (fuel : Nat) (st : EngState),
      (mcmfLoop s t fuel st).1.g.labels = st.g.labels
  | 0, _ => rfl
  | fuel + 1, st => by
    unfold mcmfLoop
    cases hstep : mcmfStep s t st with
    | none => rfl
    | some st' => rw [labels_mcmfLoop fuel st', labels_mcmfStep hstep]

theorem numNodes_solveFinal (g : Graph) (s t : Nat) :
    numNodes (solveFinal g s t).g = numNodes g := by
  unfold solveFinal numNodes
  rw [labels_mcmfLoop]
  rfl


theorem reach_trans {g : Graph} {u v w : Nat} (h1 : Reach g u v)
    (h2 : Reach g v w) : Reach g u w := by
  induction h2 with
  | refl => exact h1
  | step hr hget hsrc hres ih => exact Reach.step ih hget hsrc hres

theorem chain_reach {g : Graph} :
    ∀ {l : List Nat} {u w : Nat}, chainOk g u l w →
      (∀ i ∈ l, 0 < residAt g i) → Reach g u w
  | [], u, w, hch, _ => by
    obtain rfl : u = w := hch
    exact Reach.refl
  | i :: is, u, w, hch, hres => by
    obtain ⟨hi, hsrc, hc⟩ := hch
    cases hgi : g.arcs.get? i with
    | none =>
      exfalso
      have := List.get?_eq_none.mp hgi
      omega
    | some a =>
      have hres0 : 0 < residual a := by
        have := hres i (List.mem_cons_self i is)
        unfold residAt at this
        rw [hgi] at this
        exact this
      have hasrc : a.src = u := by
        unfold arcSrc at hsrc
        rw [hgi] at hsrc
        exact hsrc
      have hadst : arcDst g i = a.dst := by
        unfold arcDst
        rw [hgi]
      have h1 : Reach g u a.dst :=
        Reach.step Reach.refl hgi hasrc hres0
      have h2 : Reach g a.dst w := by
        rw [← hadst]
        exact chain_reach hc (fun j hj => hres j (List.mem_cons_of_mem i hj))
      exact reach_trans h1 h2

/-- C7: when the engine terminates normally — its final Bellman-Ford pass
reports the sink unreachable in the residual graph, which is the loop's
only exit in spec §4.3 step 2 — no augmenting path from source to sink
remains in the final residual graph at all; in particular no augmenting
path of strictly negative reduced cost (with respect to the final
potentials) remains reachable. -/
theorem C7_no_augmenting_path_at_termination
    (edges : List (String × String × Int × Int)) (source sink : String)
    (s t : Nat)
    (hE : EdgesOk edges)
    (hs : lookupLabel (buildGraph edges).labels source = some s)
    (ht : lookupLabel (buildGraph edges).labels sink = some t)
    (hdist : (bellmanFord (solveFinal (buildGraph edges) s t).g
        (solveFinal (buildGraph edges) s t).pot s).dist.getD t none = none) :
    ∀ l, chainOk (solveFinal (buildGraph edges) s t).g s l t →
      (∀ i ∈ l, 0 < residAt (solveFinal (buildGraph edges) s t).g i) →
      ¬ ((l.map (fun i =>
          arcCost (solveFinal (buildGraph edges) s t).g i
            + (solveFinal (buildGraph edges) s t).pot.getD
                (arcSrc (solveFinal (buildGraph edges) s t).g i) 0
            - (solveFinal (buildGraph edges) s t).pot.getD
                (arcDst (solveFinal (buildGraph edges) s t).g i) 0)).sum
        < 0) := by
  intro l hch hres _
  have hI := engInv_solveFinal (g := buildGraph edges) s t
    (Wf_buildGraph hE) (ZeroFlow_buildGraph hE)
  have hW : Wf (solveFinal (buildGraph edges) s t).g := hI.1
  have hslt : s < numNodes (solveFinal (buildGraph edges) s t).g := by
    rw [numNodes_solveFinal]
    exact lookupLabel_lt _ _ _ hs
  have hreach : Reach (solveFinal (buildGraph edges) s t).g s t :=
    chain_reach hch hres
  exact absurd hdist
    (bf_complete (solveFinal (buildGraph edges) s t).pot hW hslt t hreach)

/-- C7 witness: on the example graph, the final Bellman-Ford pass does
report the sink unreachable, and the theorem applies there. -/
theorem C7_witness :
    (bellmanFord (solveFinal exampleGraph 0 3).g
        (solveFinal exampleGraph 0 3).pot 0).dist.getD 3 none = none
    ∧ (∀ l, chainOk (solveFinal exampleGraph 0 3).g 0 l 3 →
      (∀ i ∈ l, 0 < residAt (solveFinal exampleGraph 0 3).g i) →
      ¬ ((l.map (fun i =>
          arcCost (solveFinal exampleGraph 0 3).g i
            + (solveFinal exampleGraph 0 3).pot.getD
                (arcSrc (solveFinal exampleGraph 0 3).g i) 0
            - (solveFinal exampleGraph 0 3).pot.getD
                (arcDst (solveFinal exampleGraph 0 3).g i) 0)).sum
        < 0)) :=
  ⟨by decide,
   C7_no_augmenting_path_at_termination
    [("a", "b", 10, 200), ("b", "c", 20, 0), ("c", "e", 15, 0),
     ("a", "d", 2, 100), ("d", "e", 3, 0)] "a" "e" 0 3
    (by unfold EdgesOk; decide) (by decide) (by decide) (by decide)⟩

end Mcmf
